import Mathlib

/-!
Verification of the cook recipe pipeline: the Cooklang tokenizer and
markdown formatter, the structured-recipe parsers, and the template engine.
JavaScript strings are modelled as lists of characters (`Str`); the regular
expressions of the source are modelled by explicit scanning functions with
the same matching semantics.  Fallible code returns `Except`.
-/

/-- Str models a JavaScript string as a list of characters. -/
abbrev Str := List Char

/-- Converts a Lean string literal to the character-list model. -/
def str (s : String) : Str := s.toList

/-- The left-brace character, written numerically. -/
def lbrace : Char := Char.ofNat 123

/-- The right-brace character, written numerically. -/
def rbrace : Char := Char.ofNat 125

/-- Whitespace test used by the model of JavaScript trim. -/
def isWS (c : Char) : Bool := c == ' ' || c == '\t' || c == '\n' || c == '\r'

/-- Model of JavaScript trimStart restricted to ASCII whitespace. -/
def trimL (s : Str) : Str := s.dropWhile isWS

/-- Model of JavaScript trimEnd restricted to ASCII whitespace. -/
def trimR (s : Str) : Str := (s.reverse.dropWhile isWS).reverse

/-- Model of JavaScript String.prototype.trim. -/
def jsTrim (s : Str) : Str := trimR (trimL s)

/-- Word characters of the JavaScript regex classes backslash-w and backslash-b. -/
def isWordChar (c : Char) : Bool := c.isAlphanum || c == '_'

/-- ASCII digit test, the JavaScript regex class backslash-d. -/
def isDig (c : Char) : Bool := c.isDigit

/-- Character class of the amount pattern: digits, dots and hyphens. -/
def isNumRunChar (c : Char) : Bool := c.isDigit || c == '.' || c == '-'

/-- Characters the JavaScript regex dot does not match (line terminators). -/
def isLineTerm (c : Char) : Bool :=
  c == '\n' || c == '\r' || c == Char.ofNat 8232 || c == Char.ofNat 8233

/-- Brace test for the ingredient-name character class. -/
def isBrace (c : Char) : Bool := c == lbrace || c == rbrace

/-- JavaScript truthiness of an optional string (null or empty string is falsy). -/
def strTruthy : Option Str → Bool
  | none => false
  | some s => !s.isEmpty

/-! ## Markup tokenizer

Models the regex loops of parseCooklangToMarkdown: the ingredient pattern
at-sign name-run brace spec brace, and the identical cookware pattern with a
hash sigil.  A match attempt at a sigil succeeds exactly when the first brace
character after the sigil is a left brace, at least one character precedes
it, and a right brace follows; the scanner then continues after the match,
otherwise it advances one character. -/

/-- Attempts to match name-run, left brace, spec, right brace at the head of
the input, returning the raw name, the raw spec, and the rest. -/
def tryMatch (cs : Str) : Option (Str × Str × Str) :=
  let name := cs.takeWhile (fun c => !isBrace c)
  let r1 := cs.dropWhile (fun c => !isBrace c)
  match r1 with
  | [] => none
  | b :: r2 =>
    if name.isEmpty then none
    else if b == lbrace then
      let spec := r2.takeWhile (fun c => c != rbrace)
      match r2.dropWhile (fun c => c != rbrace) with
      | [] => none
      | _ :: r3 => some (name, spec, r3)
    else none

/-- Fueled scanner for all sigil-name-brace-spec-brace occurrences, in order. -/
def findRefsAux (sigil : Char) : Nat → Str → List (Str × Str)
  | 0, _ => []
  | _, [] => []
  | fuel + 1, c :: rest =>
    if c == sigil then
      match tryMatch rest with
      | some (name, spec, r3) => (name, spec) :: findRefsAux sigil fuel r3
      | none => findRefsAux sigil fuel rest
    else findRefsAux sigil fuel rest

/-- All raw (name, spec) occurrences for a sigil, leftmost first. -/
def findRefs (sigil : Char) (cs : Str) : List (Str × Str) :=
  findRefsAux sigil cs.length cs

/-- IngredientRef value stored in the ingredient map. -/
structure IngredientInfo where
  amount : Option Str
  unit : Option Str
  spec : Str
deriving DecidableEq, Repr

/-- Parses amount and unit from a trimmed spec, modelling the source branch:
a match of caret, digits-dots-hyphens run, percent, dot-plus, dollar gives
amount and trimmed unit; else a spec starting with a digit is the amount. -/
def specAmountUnit (spec : Str) : Option Str × Option Str :=
  if spec.isEmpty then (none, none)
  else
    let run := spec.takeWhile isNumRunChar
    let rest := spec.dropWhile isNumRunChar
    match rest with
    | p :: u =>
      if !run.isEmpty && p == '%' && !u.isEmpty && u.all (fun c => !isLineTerm c) then
        (some run, some (jsTrim u))
      else if isDig (spec.headD ' ') then (some spec, none)
      else (none, none)
    | [] =>
      if isDig (spec.headD ' ') then (some spec, none)
      else (none, none)

/-- Builds the IngredientRef for one occurrence from its raw spec. -/
def mkIngredientInfo (rawSpec : Str) : IngredientInfo :=
  let spec := jsTrim rawSpec
  let (amount, unit) := specAmountUnit spec
  { amount := amount, unit := unit, spec := spec }

/-- Replaces the value stored under a key in place, appending when absent,
modelling JavaScript Map.prototype.set insertion-order semantics. -/
def mapSet (m : List (Str × IngredientInfo)) (name : Str) (info : IngredientInfo) :
    List (Str × IngredientInfo) :=
  match m with
  | [] => [(name, info)]
  | (k, v) :: rest =>
    if k = name then (k, info) :: rest else (k, v) :: mapSet rest name info

/-- Looks a name up in the ingredient map. -/
def mapGet (m : List (Str × IngredientInfo)) (name : Str) : Option IngredientInfo :=
  match m with
  | [] => none
  | (k, v) :: rest => if k = name then some v else mapGet rest name

/-- Stores one occurrence, modelling the dedup condition of the source:
insert when absent, or replace when the new amount is truthy and the stored
amount is not. -/
def insertIngredient (m : List (Str × IngredientInfo)) (name : Str)
    (info : IngredientInfo) : List (Str × IngredientInfo) :=
  match mapGet m name with
  | none => mapSet m name info
  | some stored =>
    if strTruthy info.amount && !strTruthy stored.amount then mapSet m name info
    else m

/-- Folds the occurrence list into the deduplicated ingredient map. -/
def buildIngredients (occs : List (Str × Str)) : List (Str × IngredientInfo) :=
  occs.foldl (fun m occ => insertIngredient m (jsTrim occ.1) (mkIngredientInfo occ.2)) []

/-- The tokenizer ingredient map of a raw markup input. -/
def tokenizeIngredients (input : Str) : List (Str × IngredientInfo) :=
  buildIngredients (findRefs '@' input)

/-- Adds an equipment name to the set unless already present
(JavaScript Set insertion order). -/
def setAdd (s : List Str) (name : Str) : List Str :=
  if s.contains name then s else s ++ [name]

/-- The tokenizer equipment set of a raw markup input. -/
def tokenizeEquipment (input : Str) : List Str :=
  (findRefs '#' input).foldl (fun s occ => setAdd s (jsTrim occ.1)) []

/-! ## Markdown formatter

Models the step-text construction of parseCooklangToMarkdown: frontmatter
stripping, the three replacement passes (ingredients, cookware, timers), the
per-step ingredient annotation via a case-insensitive whole-word search, and
the word wrapping of wrapStepText. -/

/-- Index of the first occurrence of a pattern, modelling String.indexOf
(none stands for the sentinel -1). -/
def idxOf (pat : Str) : Str → Option Nat
  | [] => if pat.isEmpty then some 0 else none
  | c :: cs => if pat.isPrefixOf (c :: cs) then some 0 else (idxOf pat cs).map (· + 1)

/-- Strips a leading frontmatter block matching caret dash dash dash newline,
lazy any-run, newline dash dash dash, then trims, as in the source. -/
def stripFrontmatter (cs : Str) : Str :=
  if (str "---\n").isPrefixOf cs then
    match idxOf (str "\n---") (cs.drop 4) with
    | some i => jsTrim (cs.drop (4 + i + 4))
    | none => jsTrim cs
  else jsTrim cs

/-- Replacement pass for one sigil: each matched reference becomes the
trimmed name; unmatched characters are copied. -/
def replRefsAux (sigil : Char) : Nat → Str → Str
  | 0, cs => cs
  | _, [] => []
  | fuel + 1, c :: rest =>
    if c == sigil then
      match tryMatch rest with
      | some (name, _, r3) => jsTrim name ++ replRefsAux sigil fuel r3
      | none => c :: replRefsAux sigil fuel rest
    else c :: replRefsAux sigil fuel rest

/-- Replaces every sigil reference in a line by its trimmed name. -/
def replRefs (sigil : Char) (cs : Str) : Str := replRefsAux sigil cs.length cs

/-- Attempts to match left brace, non-empty spec, right brace after a tilde. -/
def tryTimer (cs : Str) : Option (Str × Str) :=
  match cs with
  | [] => none
  | b :: r1 =>
    if b == lbrace then
      let spec := r1.takeWhile (fun c => c != rbrace)
      if spec.isEmpty then none
      else
        match r1.dropWhile (fun c => c != rbrace) with
        | [] => none
        | _ :: r2 => some (spec, r2)
    else none

/-- Text a timer is replaced by: amount space trimmed-unit when the raw spec
matches the amount pattern, else the raw spec. -/
def timerText (spec : Str) : Str :=
  let run := spec.takeWhile isNumRunChar
  match spec.dropWhile isNumRunChar with
  | p :: u =>
    if !run.isEmpty && p == '%' && !u.isEmpty && u.all (fun c => !isLineTerm c) then
      run ++ ' ' :: jsTrim u
    else spec
  | [] => spec

/-- Replacement pass for timers. -/
def replTimersAux : Nat → Str → Str
  | 0, cs => cs
  | _, [] => []
  | fuel + 1, c :: rest =>
    if c == '~' then
      match tryTimer rest with
      | some (spec, r2) => timerText spec ++ replTimersAux fuel r2
      | none => c :: replTimersAux fuel rest
    else c :: replTimersAux fuel rest

/-- Replaces every timer in a line. -/
def replTimers (cs : Str) : Str := replTimersAux cs.length cs

/-- Step text of one source line after the three replacement passes and trim. -/
def lineStepText (line : Str) : Str :=
  jsTrim (replTimers (replRefs '#' (replRefs '@' line)))

/-- All step texts of a recipe: non-blank lines of the stripped content,
converted and kept when non-empty. -/
def stepTexts (input : Str) : List Str :=
  let content := stripFrontmatter input
  let lines := (content.splitOn '\n').filter (fun l => !(jsTrim l).isEmpty)
  (lines.map lineStepText).filter (fun s => !s.isEmpty)

/-- Case-insensitive character comparison (ASCII, as exercised by the data). -/
def ciEq (a b : Char) : Bool := a.toLower == b.toLower

/-- Case-insensitive prefix test. -/
def ciPrefix : Str → Str → Bool
  | [], _ => true
  | _ :: _, [] => false
  | a :: as, b :: bs => ciEq a b && ciPrefix as bs

/-- Word-character test on an optional character (edges count as non-word). -/
def isWordCharO : Option Char → Bool
  | none => false
  | some c => isWordChar c

/-- Word-boundary test between two adjacent positions. -/
def boundaryOK (a b : Option Char) : Bool := isWordCharO a != isWordCharO b

/-- Match of the escaped name at the current position with word boundaries
on both sides. -/
def matchesHere (name text : Str) (prev : Option Char) : Bool :=
  ciPrefix name text &&
  boundaryOK prev text.head? &&
  boundaryOK ((text.take name.length).getLast?) ((text.drop name.length).head?)

/-- Scans every position of the text for a boundary-delimited match. -/
def nameTestAux (name : Str) (prev : Option Char) : Str → Bool
  | [] => matchesHere name [] prev
  | c :: rest => matchesHere name (c :: rest) prev || nameTestAux name (some c) rest

/-- Model of the test of the case-insensitive whole-word regex built from an
escaped ingredient name. -/
def nameTest (name text : Str) : Bool := nameTestAux name none text

/-- Annotation entry for one matched ingredient. -/
def renderAnnot (name : Str) (info : IngredientInfo) : Str :=
  if strTruthy info.amount && strTruthy info.unit then
    name ++ str ": " ++ info.amount.getD [] ++ ' ' :: info.unit.getD []
  else if strTruthy info.amount then
    name ++ str ": " ++ info.amount.getD []
  else name

/-- Collects annotation entries for the ingredients matching a step text,
in ingredient-map iteration order, modelling the per-step loop. -/
def stepIngredients (entries : List (Str × IngredientInfo)) (text : Str) : List Str :=
  match entries with
  | [] => []
  | (n, info) :: rest =>
    if nameTest n text then renderAnnot n info :: stepIngredients rest text
    else stepIngredients rest text

/-- The bracketed annotation line of a step, or bracketed en-dash. -/
def annotationLine (entries : List (Str × IngredientInfo)) (text : Str) : Str :=
  let l := stepIngredients entries text
  if l.length > 0 then str "[" ++ List.intercalate (str "; ") l ++ str "]"
  else str "[–]"

/-- Accumulating word-wrap loop of wrapStepText. -/
def wrapLoop (maxWidth : Nat) : List Str → List Str → Str → List Str
  | [], lines, current => if current.isEmpty then lines else lines ++ [current]
  | w :: ws, lines, current =>
    if (current ++ ' ' :: w).length ≤ maxWidth then
      wrapLoop maxWidth ws lines (if current.isEmpty then w else current ++ ' ' :: w)
    else
      wrapLoop maxWidth ws (if current.isEmpty then lines else lines ++ [current]) w

/-- Word wrapping of a step text, continuation lines joined with a newline
and four spaces. -/
def wrapStepText (text : Str) (maxWidth : Nat) : Str :=
  if text.length ≤ maxWidth then text
  else List.intercalate (str "\n    ") (wrapLoop maxWidth (text.splitOn ' ') [] [])

/-! ## Template engine

Models renderTemplate of template-engine.js: JavaScript values, the fueled
block passes for each and if (with the depth-counting close scanners and the
else locator), and the two variable-interpolation passes.  A thrown
TypeError is modelled as an error result; the recursion of renderTemplate
into block bodies is bounded by explicit fuel. -/

/-- JavaScript value bound in a template data mapping (a missing key is
modelled by an absent entry, that is, undefined). -/
inductive Value where
  | null
  | bool (b : Bool)
  | num (n : Int)
  | str (s : Str)
  | list (items : List Value)
  | obj (fields : List (Str × Value))

/-- Template data mapping. -/
abbrev Ctx := List (Str × Value)

/-- First-match lookup in a data mapping. -/
def ctxGet : Ctx → Str → Option Value
  | [], _ => none
  | (k, v) :: rest, key => if k == key then some v else ctxGet rest key

/-- General JavaScript truthiness of a value. -/
def jsTruthy : Value → Bool
  | .null => false
  | .bool b => b
  | .num n => n != 0
  | .str s => !s.isEmpty
  | .list _ => true
  | .obj _ => true

/-- The if-block condition of the source: value and-and, then for a list a
non-emptiness check, else the value again. -/
def jsTruthyOpt : Option Value → Bool
  | none => false
  | some v =>
    jsTruthy v && (match v with
      | .list l => decide (l.length > 0)
      | _ => jsTruthy v)

/-- Fueled pair modelling JavaScript String conversion for a value and the
comma join of Array.prototype.toString (null elements render empty). -/
def jsToStringF : Nat → ((Value → Str) × (List Value → Str)) :=
  Nat.rec
    (⟨fun _ => [], fun _ => []⟩)
    (fun _ ih =>
      ⟨fun v =>
        match v with
        | .null => str "null"
        | .bool true => str "true"
        | .bool false => str "false"
        | .num n => (toString n).toList
        | .str s => s
        | .list items => ih.2 items
        | .obj _ => str "[object Object]",
       fun items =>
        match items with
        | [] => []
        | v :: rest =>
          (match v with
            | .null => []
            | w => ih.1 w) ++
          (match rest with
            | [] => []
            | _ => ',' :: ih.2 rest)⟩)

/-- JavaScript String conversion of a value. -/
def jsToString (v : Value) : Str := (jsToStringF 1000).1 v

/-- HTML escaping of one character, as in the escape chain of the source. -/
def escChar (c : Char) : Str :=
  if c == '&' then str "&amp;"
  else if c == '<' then str "&lt;"
  else if c == '>' then str "&gt;"
  else if c == '"' then str "&quot;"
  else if c == Char.ofNat 39 then str "&#039;"
  else [c]

/-- HTML escaping of a string. -/
def escapeHtml (s : Str) : Str := (s.map escChar).flatten

/-- Open tag text of an each block. -/
def eachOpenT : Str := str "\x7b\x7b#each"

/-- Close tag text of an each block. -/
def eachCloseT : Str := str "\x7b\x7b/each\x7d\x7d"

/-- Open tag text of an if block. -/
def ifOpenT : Str := str "\x7b\x7b#if"

/-- Close tag text of an if block. -/
def ifCloseT : Str := str "\x7b\x7b/if\x7d\x7d"

/-- Else tag text. -/
def elseT : Str := str "\x7b\x7belse\x7d\x7d"

/-- Closing double brace of a block open tag. -/
def closeBr : Str := str "\x7d\x7d"

/-- Slice of a character list between two indices, as String.prototype.slice
with non-negative arguments. -/
def sliceL (cs : Str) (a b : Nat) : Str := (cs.take b).drop a

/-- Depth-counting scan for the close tag matching an open block, modelling
findMatchingClose; none stands for the sentinel -1. -/
def findCloseAux (openT closeT : Str) : Nat → Str → Nat → Int → Option Nat
  | 0, _, _, _ => none
  | f + 1, s, pos, depth =>
    match idxOf closeT (s.drop pos) with
    | none => none
    | some c0 =>
      let nc := pos + c0
      match idxOf openT (s.drop pos) with
      | some o0 =>
        if pos + o0 < nc then
          findCloseAux openT closeT f s (pos + o0 + openT.length) (depth + 1)
        else if depth - 1 == 0 then some nc
        else findCloseAux openT closeT f s (nc + closeT.length) (depth - 1)
      | none =>
        if depth - 1 == 0 then some nc
        else findCloseAux openT closeT f s (nc + closeT.length) (depth - 1)

/-- findMatchingClose for each blocks, over the suffix after the open tag. -/
def findMatchingClose (s : Str) : Option Nat :=
  findCloseAux eachOpenT eachCloseT (s.length + 1) s 0 1

/-- findMatchingIfClose, over the suffix after the open tag. -/
def findMatchingIfClose (s : Str) : Option Nat :=
  findCloseAux ifOpenT ifCloseT (s.length + 1) s 0 1

/-- Comparison of a position against an optional position (absent is far). -/
def leOpt (a : Nat) : Option Nat → Bool
  | none => true
  | some b => a ≤ b

/-- Locator for the else tag belonging to the current if block, modelling
findMatchingElse over the suffix after the open tag. -/
def findElseAux : Nat → Str → Nat → Nat → Int → Option Nat
  | 0, _, _, _, _ => none
  | f + 1, s, pos, endP, depth =>
    if pos < endP then
      let nOpen := (idxOf ifOpenT (s.drop pos)).map (· + pos)
      let nElse := (idxOf elseT (s.drop pos)).map (· + pos)
      let nClose := (idxOf ifCloseT (s.drop pos)).map (· + pos)
      match nElse with
      | none => none
      | some e =>
        match nOpen with
        | some o =>
          if o ≤ e && leOpt o nClose then findElseAux f s (o + ifOpenT.length) endP (depth + 1)
          else if leOpt e nClose then
            (if depth == 0 then some e else findElseAux f s (e + elseT.length) endP depth)
          else
            match nClose with
            | some cl => findElseAux f s (cl + ifCloseT.length) endP (depth - 1)
            | none => none
        | none =>
          if leOpt e nClose then
            (if depth == 0 then some e else findElseAux f s (e + elseT.length) endP depth)
          else
            match nClose with
            | some cl => findElseAux f s (cl + ifCloseT.length) endP (depth - 1)
            | none => none
    else none

/-- findMatchingElse over the suffix after the open tag, bounded by the
matching close position. -/
def findElse (s : Str) (endP : Nat) : Option Nat :=
  findElseAux (s.length + 1) s 0 endP 0

/-- The array an each block iterates: missing or falsy gives the empty
list, a list gives itself, and a truthy non-list value throws. -/
def eachArray : Option Value → Except Str (List Value)
  | none => .ok []
  | some v =>
    if jsTruthy v then
      match v with
      | .list l => .ok l
      | _ => .error (str "TypeError: array.map is not a function")
    else .ok []

/-- The value bound to this inside an each iteration. -/
def thisVal : Value → Value
  | .str s => .str s
  | .num n => .num n
  | v => if jsTruthy v then v else .str []

/-- Own fields spread from an object element. -/
def fieldsOf : Value → List (Str × Value)
  | .obj fs => fs
  | _ => []

/-- Iteration context of one each element: at-index and this bindings over
the spread element fields over the outer context. -/
def mkItemCtx (data : Ctx) (item : Value) (idx0 : Nat) : Ctx :=
  (str "@index", Value.num (Int.ofNat (idx0 + 1))) ::
  (str "this", thisVal item) ::
  fieldsOf item ++ data

/-- Renders the block body once per element and joins the results. -/
def joinMapRender (render : Str → Ctx → Except Str Str) (content : Str) (data : Ctx) :
    Nat → List Value → Except Str Str
  | _, [] => .ok []
  | idx0, item :: rest =>
    match render content (mkItemCtx data item idx0) with
    | .error e => .error e
    | .ok r =>
      match joinMapRender render content data (idx0 + 1) rest with
      | .error e => .error e
      | .ok rr => .ok (r ++ rr)

/-- One scanning pass over the current result expanding each blocks. -/
def eachScan (render : Str → Ctx → Except Str Str) :
    Nat → Str → Ctx → Str → Bool → Except Str (Str × Bool)
  | 0, cs, _, acc, changed => .ok (acc ++ cs, changed)
  | f + 1, cs, data, acc, changed =>
    match idxOf eachOpenT cs with
    | none => .ok (acc ++ cs, changed)
    | some i =>
      let pre := cs.take i
      let rest := cs.drop i
      match idxOf closeBr rest with
      | none => .ok (acc ++ pre ++ rest, changed)
      | some j =>
        let arrayKey := jsTrim (sliceL rest eachOpenT.length j)
        let s2 := rest.drop (j + 2)
        match findMatchingClose s2 with
        | none => .ok (acc ++ pre ++ rest, changed)
        | some r =>
          let content := s2.take r
          match eachArray (ctxGet data arrayKey) with
          | .error e => .error e
          | .ok items =>
            match joinMapRender render content data 0 items with
            | .error e => .error e
            | .ok rendered =>
              eachScan render f (s2.drop (r + eachCloseT.length)) data
                (acc ++ pre ++ rendered) true

/-- The outer each loop with its 100-pass safety cap. -/
def eachLoop (render : Str → Ctx → Except Str Str) :
    Nat → Str → Ctx → Except Str Str
  | 0, cs, _ => .ok cs
  | it + 1, cs, data =>
    match eachScan render (cs.length + 1) cs data [] false with
    | .error e => .error e
    | .ok (r, changed) => if changed then eachLoop render it r data else .ok r

/-- One scanning pass expanding if blocks. -/
def ifScan (render : Str → Ctx → Except Str Str) :
    Nat → Str → Ctx → Str → Bool → Except Str (Str × Bool)
  | 0, cs, _, acc, changed => .ok (acc ++ cs, changed)
  | f + 1, cs, data, acc, changed =>
    match idxOf ifOpenT cs with
    | none => .ok (acc ++ cs, changed)
    | some i =>
      let pre := cs.take i
      let rest := cs.drop i
      match idxOf closeBr rest with
      | none => .ok (acc ++ pre ++ rest, changed)
      | some j =>
        let condition := jsTrim (sliceL rest ifOpenT.length j)
        let s2 := rest.drop (j + 2)
        match findMatchingIfClose s2 with
        | none => .ok (acc ++ pre ++ rest, changed)
        | some r =>
          let contentElse :=
            match findElse s2 r with
            | some e => (s2.take e, sliceL s2 (e + elseT.length) r)
            | none => (s2.take r, [])
          if jsTruthyOpt (ctxGet data condition) then
            match render contentElse.1 data with
            | .error e => .error e
            | .ok rendered =>
              ifScan render f (s2.drop (r + ifCloseT.length)) data
                (acc ++ pre ++ rendered) true
          else if !contentElse.2.isEmpty then
            match render contentElse.2 data with
            | .error e => .error e
            | .ok rendered =>
              ifScan render f (s2.drop (r + ifCloseT.length)) data
                (acc ++ pre ++ rendered) true
          else
            ifScan render f (s2.drop (r + ifCloseT.length)) data (acc ++ pre) true

/-- The outer if loop with its 100-pass safety cap. -/
def ifLoop (render : Str → Ctx → Except Str Str) :
    Nat → Str → Ctx → Except Str Str
  | 0, cs, _ => .ok cs
  | it + 1, cs, data =>
    match ifScan render (cs.length + 1) cs data [] false with
    | .error e => .error e
    | .ok (r, changed) => if changed then ifLoop render it r data else .ok r

/-- Parses the key of a variable tag after the opening braces: optional
at-sign, a non-empty word run, then the closing braces; returns the key and
the rest after the tag. -/
def parseVarKey (cs : Str) : Option (Str × Str) :=
  let atPart := match cs with
    | c :: _ => if c == '@' then [c] else []
    | [] => []
  let cs1 := cs.drop atPart.length
  let w := cs1.takeWhile isWordChar
  let cs2 := cs1.dropWhile isWordChar
  if w.isEmpty then none
  else if closeBr.isPrefixOf cs2 then some (atPart ++ w, cs2.drop 2)
  else none

/-- Substituted text for a variable key: raw stringification, or empty for
objects and lists and HTML-escaped text otherwise; undefined gives empty. -/
def substVar (raw : Bool) (data : Ctx) (key : Str) : Str :=
  match ctxGet data key with
  | none => []
  | some v =>
    if raw then jsToString v
    else
      match v with
      | .obj _ => []
      | .list _ => []
      | w => escapeHtml (jsToString w)

/-- Scanning replacement pass for variable tags; the raw flag selects the
ampersand form. -/
def varPassAux (raw : Bool) (data : Ctx) : Nat → Str → Str
  | 0, cs => cs
  | _, [] => []
  | f + 1, c :: rest =>
    if c == lbrace then
      match rest with
      | c2 :: rest2 =>
        if c2 == lbrace then
          match (if raw then
                  (match rest2 with
                   | a :: r3 => if a == '&' then some r3 else none
                   | [] => none)
                 else some rest2) with
          | some r3 =>
            match parseVarKey r3 with
            | some (key, after) => substVar raw data key ++ varPassAux raw data f after
            | none => c :: varPassAux raw data f rest
          | none => c :: varPassAux raw data f rest
        else c :: varPassAux raw data f rest
      | [] => [c]
    else c :: varPassAux raw data f rest

/-- One full variable pass over a string. -/
def varPass (raw : Bool) (data : Ctx) (cs : Str) : Str :=
  varPassAux raw data cs.length cs

/-- Fueled model of renderTemplate: the each passes, the if passes, the raw
interpolation pass, then the escaped interpolation pass. -/
def renderTemplate : Nat → Str → Ctx → Except Str Str :=
  Nat.rec
    (fun _ _ => .error (str "out of fuel"))
    (fun _ ih => fun t data =>
      match eachLoop ih 100 t data with
      | .error e => .error e
      | .ok r1 =>
        match ifLoop ih 100 r1 data with
        | .error e => .error e
        | .ok r2 => .ok (varPass false data (varPass true data r2)))

/-! ## Structured-recipe parsers

Models parseRecipe and parseContent of processor.js, and the extended
parseContent of the serverless pipeline (namespace Tasks), which adds
multi-line steps and the metadata-key skip list. -/

/-- Numeric value of a digit string. -/
def digitsToInt (ds : Str) : Int :=
  Int.ofNat (ds.foldl (fun acc c => acc * 10 + (c.toNat - 48)) 0)

/-- Model of JavaScript parseInt on a string (leading whitespace, optional
sign, leading digits; no digits gives NaN, modelled as none). -/
def jsParseInt (v : Str) : Option Int :=
  let t := v.dropWhile isWS
  match t with
  | c :: rest =>
    if c == '-' then
      let ds := rest.takeWhile isDig
      if ds.isEmpty then none else some (-(digitsToInt ds))
    else if c == '+' then
      let ds := rest.takeWhile isDig
      if ds.isEmpty then none else some (digitsToInt ds)
    else
      let ds := t.takeWhile isDig
      if ds.isEmpty then none else some (digitsToInt ds)
  | [] => none

/-- Substring containment, modelling String.prototype.includes. -/
def containsSub (needle hay : Str) : Bool := (idxOf needle hay).isSome

/-- Section entered by a markdown header line, per the header regex of
parseContent. -/
inductive Sect where
  | ingredients
  | equipment
  | instructions
deriving DecidableEq

/-- Detects a section header: one or more hashes, optional whitespace, then
one of the section words as a case-insensitive prefix. -/
def headerSect (t : Str) : Option Sect :=
  let hashes := t.takeWhile (fun c => c == '#')
  if hashes.isEmpty then none
  else
    let low := ((t.dropWhile (fun c => c == '#')).dropWhile isWS).map Char.toLower
    if (str "ingredient").isPrefixOf low then some .ingredients
    else if (str "instruction").isPrefixOf low then some .instructions
    else if (str "step").isPrefixOf low then some .instructions
    else if (str "equipment").isPrefixOf low then some .equipment
    else if (str "direction").isPrefixOf low then some .instructions
    else none

/-- Steps-section start header of the second pass of Tasks.parseContent. -/
def isStepsHeader (t : Str) : Bool :=
  let hashes := t.takeWhile (fun c => c == '#')
  if hashes.isEmpty then false
  else
    let low := ((t.dropWhile (fun c => c == '#')).dropWhile isWS).map Char.toLower
    (str "instruction").isPrefixOf low || (str "step").isPrefixOf low ||
      (str "direction").isPrefixOf low

/-- Steps-section end header of the second pass of Tasks.parseContent. -/
def isEndHeader (t : Str) : Bool :=
  let hashes := t.takeWhile (fun c => c == '#')
  if hashes.isEmpty then false
  else
    let low := ((t.dropWhile (fun c => c == '#')).dropWhile isWS).map Char.toLower
    (str "ingredient").isPrefixOf low || (str "equipment").isPrefixOf low

/-- Splits a trimmed numbered step line into its digits and the captured
step content, per the numbered-step regex. -/
def stepNumSplit (t : Str) : Option (Str × Str) :=
  let ds := t.takeWhile isDig
  if ds.isEmpty then none
  else
    match t.dropWhile isDig with
    | c :: r2 =>
      if c == '.' || c == ')' then
        let rest := r2.dropWhile isWS
        if rest.isEmpty then none
        else if rest.all (fun ch => !isLineTerm ch) then some (ds, rest)
        else none
      else none
    | [] => none

/-- Prefix test of the fallback heuristic for numbered list items. -/
def isNumberedItem (t : Str) : Bool :=
  let ds := t.takeWhile isDig
  if ds.isEmpty then false
  else
    match t.dropWhile isDig with
    | c :: _ => c == '.' || c == ')'
    | [] => false

/-- Fallback cleanup: one leading dash, star, digit, dot or parenthesis,
plus following whitespace, is removed. -/
def cleanItem (t : Str) : Str :=
  match t with
  | c :: rest =>
    if c == '-' || c == '*' || isDig c || c == '.' || c == ')' then rest.dropWhile isWS
    else t
  | [] => t

/-- Unit keywords of the fallback classification heuristic. -/
def measurementWords : List Str :=
  [str "cup", str "tbsp", str "tsp", str "oz", str "lb", str "g", str "kg",
   str "ml", str "l"]

/-- Classification test of the fallback heuristic. -/
def hasMeasurement (ci : Str) : Bool :=
  measurementWords.any (fun w => containsSub w (ci.map Char.toLower))

/-- RecipeRecord of the structured-recipe parser. -/
structure RecipeRecord where
  filename : Str
  slug : Str
  title : Str
  tags : List Str
  categories : List Str
  servings : Option Int
  prepTime : Option Str
  cookTime : Option Str
  ingredients : List Str
  instructions : List Str
  equipment : List Str
  rawMarkdown : Str
deriving DecidableEq

/-- Squashes whitespace runs to single hyphens, as the slug replace. -/
def squashWs : Str → Str
  | [] => []
  | c :: rest =>
    if isWS c then
      match rest with
      | c2 :: _ => if isWS c2 then squashWs rest else '-' :: squashWs rest
      | [] => ['-']
    else c :: squashWs rest

/-- Slug of a filename: lowercase with whitespace runs as hyphens. -/
def slugOf (f : Str) : Str := squashWs (f.map Char.toLower)

/-- Replaces hyphens by spaces (and only hyphens), as the title fallback. -/
def dashToSpace (f : Str) : Str := f.map (fun c => if c == '-' then ' ' else c)

/-- Uppercases each word character at a word boundary, modelling the global
replace of word-initial characters. -/
def upWordInit (prev : Option Char) : Str → Str
  | [] => []
  | c :: rest =>
    (if isWordChar c && !isWordCharO prev then c.toUpper else c) ::
      upWordInit (some c) rest

/-- Title fallback computed from the filename by the source: hyphens to
spaces, then word-initial uppercase. -/
def titleFromFilename (f : Str) : Str := upWordInit none (dashToSpace f)

/-- Value captured by the frontmatter line regex after the colon, with the
backtracking of whitespace-star dot-plus dollar on one line. -/
def fmValue (r2 : Str) : Option Str :=
  let v0 := r2.dropWhile isWS
  if !v0.isEmpty then
    if v0.all (fun ch => !isLineTerm ch) then some v0 else none
  else
    match r2.reverse with
    | last :: _ => if isLineTerm last then none else some [last]
    | [] => none

/-- Key and value of a frontmatter line, per the line regex. -/
def fmLineKV (line : Str) : Option (Str × Str) :=
  let k := line.takeWhile isWordChar
  if k.isEmpty then none
  else
    match line.dropWhile isWordChar with
    | c :: r2 => if c == ':' then (fmValue r2).map (fun v => (k, v)) else none
    | [] => none

/-- Strips one leading and one trailing quote character. -/
def cleanQuote (v : Str) : Str :=
  let isQ := fun c => c == '"' || c == Char.ofNat 39
  let v1 := match v with
    | c :: rest => if isQ c then rest else v
    | [] => v
  match v1.reverse with
  | c :: rest2 => if isQ c then rest2.reverse else v1
  | [] => v1

/-- Comma-separated split with trim and empty filter, for tags and
categories values. -/
def splitCommaClean (v : Str) : List Str :=
  ((v.splitOn ',').map jsTrim).filter (fun t => !t.isEmpty)

/-- Servings value: parseInt or-else null (zero is falsy). -/
def servingsVal (v : Str) : Option Int :=
  match jsParseInt v with
  | some n => if n == 0 then none else some n
  | none => none

/-- Applies one frontmatter line to the record, per the switch of the
source. -/
def applyFmLine (r : RecipeRecord) (line : Str) : RecipeRecord :=
  match fmLineKV line with
  | none => r
  | some (k, v) =>
    let key := k.map Char.toLower
    let cleanValue := cleanQuote v
    if key == str "title" then { r with title := cleanValue }
    else if key == str "tags" then { r with tags := splitCommaClean cleanValue }
    else if key == str "categories" || key == str "category" then
      { r with categories := splitCommaClean cleanValue }
    else if key == str "servings" then { r with servings := servingsVal cleanValue }
    else if key == str "prep_time" || key == str "preptime" then
      { r with prepTime := some cleanValue }
    else if key == str "cook_time" || key == str "cooktime" then
      { r with cookTime := some cleanValue }
    else r

namespace Processor

/-- State of the section scan of parseContent. -/
structure PCState where
  cur : Option Sect
  ings : List Str
  instrs : List Str
  equip : List Str

/-- One line of the section scan of parseContent of processor.js. -/
def pcStep (st : PCState) (line : Str) : PCState :=
  let t := jsTrim line
  match headerSect t with
  | some s => { st with cur := some s }
  | none =>
    if t.isEmpty || t.headD ' ' == '#' then st
    else
      match st.cur with
      | none => st
      | some .ingredients =>
        if t.headD ' ' == '-' || t.headD ' ' == '*' then
          let ing := jsTrim (t.drop 1)
          if ing.isEmpty then st else { st with ings := st.ings ++ [ing] }
        else if t.headD ' ' == '[' then st
        else { st with ings := st.ings ++ [t] }
      | some .equipment =>
        if t.headD ' ' == '-' || t.headD ' ' == '*' then
          let eq := jsTrim (t.drop 1)
          if eq.isEmpty then st else { st with equip := st.equip ++ [eq] }
        else { st with equip := st.equip ++ [t] }
      | some .instructions =>
        match stepNumSplit t with
        | some (_, s0) =>
          let stepText := jsTrim s0
          let cleanStep := jsTrim ((stepText.splitOn '\n').headD [])
          if !cleanStep.isEmpty && !(cleanStep.headD ' ' == '[') then
            { st with instrs := st.instrs ++ [cleanStep] }
          else st
        | none =>
          if t.headD ' ' == '-' || t.headD ' ' == '*' then
            let ins := jsTrim (t.drop 1)
            if !ins.isEmpty && !(ins.headD ' ' == '[') then
              { st with instrs := st.instrs ++ [ins] }
            else st
          else if t.headD ' ' == '[' then st
          else { st with instrs := st.instrs ++ [t] }

/-- Fallback classification of list items when no section was detected. -/
def fallbackLists (lines : List Str) : List Str × List Str :=
  let listItems := (lines.map jsTrim).filter
    (fun l => !l.isEmpty &&
      (l.headD ' ' == '-' || l.headD ' ' == '*' || isNumberedItem l))
  let cls := listItems.map cleanItem
  (cls.filter hasMeasurement, cls.filter (fun c => !hasMeasurement c))

/-- parseContent of processor.js: section scan with the fallback heuristic. -/
def parseContent (content : Str) (r : RecipeRecord) : RecipeRecord :=
  let lines := content.splitOn '\n'
  let st := lines.foldl pcStep { cur := none, ings := [], instrs := [], equip := [] }
  if st.ings.isEmpty && st.instrs.isEmpty then
    let fb := fallbackLists lines
    { r with ingredients := fb.1, instructions := fb.2, equipment := st.equip }
  else
    { r with ingredients := st.ings, instructions := st.instrs, equipment := st.equip }

/-- parseRecipe of processor.js, taking the markdown and the basename of the
file without its extension. -/
def parseRecipe (markdown : Str) (filename : Str) : RecipeRecord :=
  let base : RecipeRecord :=
    { filename := filename, slug := slugOf filename, title := [], tags := [],
      categories := [], servings := none, prepTime := none, cookTime := none,
      ingredients := [], instructions := [], equipment := [],
      rawMarkdown := markdown }
  if (str "---\n").isPrefixOf markdown then
    match idxOf (str "\n---") (markdown.drop 4) with
    | some i =>
      let fm := sliceL markdown 4 (4 + i)
      let content := jsTrim (markdown.drop (4 + i + 4))
      let r1 := (fm.splitOn '\n').foldl applyFmLine base
      parseContent content r1
    | none =>
      let r1 := parseContent markdown base
      if r1.title.isEmpty then { r1 with title := titleFromFilename filename } else r1
  else
    let r1 := parseContent markdown base
    if r1.title.isEmpty then { r1 with title := titleFromFilename filename } else r1

end Processor

namespace Tasks

/-- Metadata keys of the skip list of the serverless parseContent. -/
def metaKeys : List Str :=
  [str "author", str "cook time", str "prep time", str "servings", str "course",
   str "cuisine", str "diet", str "source", str "tags", str "time required",
   str "title"]

/-- Case-insensitive metadata-key-prefix test of a captured step text. -/
def isMetaText (t : Str) : Bool :=
  metaKeys.any (fun k => (k ++ [':']).isPrefixOf (t.map Char.toLower))

/-- State of the instructions pass of the serverless parseContent. -/
structure TState where
  inSteps : Bool
  cur : List Str
  num : Option Int
  instrs : List Str
deriving DecidableEq

/-- The pending step flushed when a step ends. -/
def flushT (st : TState) : List Str :=
  if st.cur.isEmpty then []
  else
    let s := jsTrim (List.intercalate [' '] st.cur)
    if s.isEmpty then [] else [s]

/-- One line of the instructions pass of the serverless parseContent. -/
def tStep (st : TState) (line : Str) : TState :=
  let t := jsTrim line
  if isStepsHeader t then
    { inSteps := true, cur := [], num := none, instrs := st.instrs ++ flushT st }
  else if st.inSteps && isEndHeader t then
    { inSteps := false, cur := [], num := none, instrs := st.instrs ++ flushT st }
  else if !st.inSteps then st
  else if t.isEmpty then st
  else if t.headD ' ' == '[' then
    { st with instrs := st.instrs ++ flushT st, cur := [], num := none }
  else
    match stepNumSplit t with
    | some (ds, s0) =>
      let flushed := st.instrs ++ flushT st
      let stepText := jsTrim s0
      if isMetaText stepText then
        { st with instrs := flushed, cur := [], num := none }
      else if !stepText.isEmpty then
        { st with instrs := flushed, cur := [stepText], num := some (digitsToInt ds) }
      else
        { st with instrs := flushed }
    | none =>
      if st.num.isSome then { st with cur := st.cur ++ [t] }
      else if t.headD ' ' == '-' || t.headD ' ' == '*' then
        let ins := jsTrim (t.drop 1)
        if ins.isEmpty then st else { st with instrs := st.instrs ++ [ins] }
      else st

/-- Instructions produced by the second pass plus the final flush. -/
def tasksInstructions (lines : List Str) : List Str :=
  let st := lines.foldl tStep { inSteps := false, cur := [], num := none, instrs := [] }
  if st.inSteps then st.instrs ++ flushT st else st.instrs

/-- State of the first pass (ingredients and equipment only; the
instructions branch of that loop is a no-op). -/
structure T1State where
  cur : Option Sect
  ings : List Str
  equip : List Str

/-- One line of the first pass of the serverless parseContent. -/
def t1Step (st : T1State) (line : Str) : T1State :=
  let t := jsTrim line
  match headerSect t with
  | some s => { st with cur := some s }
  | none =>
    if t.isEmpty || t.headD ' ' == '#' then st
    else
      match st.cur with
      | none => st
      | some .ingredients =>
        if t.headD ' ' == '-' || t.headD ' ' == '*' then
          let ing := jsTrim (t.drop 1)
          if ing.isEmpty then st else { st with ings := st.ings ++ [ing] }
        else if t.headD ' ' == '[' then st
        else { st with ings := st.ings ++ [t] }
      | some .equipment =>
        if t.headD ' ' == '-' || t.headD ' ' == '*' then
          let eq := jsTrim (t.drop 1)
          if eq.isEmpty then st else { st with equip := st.equip ++ [eq] }
        else { st with equip := st.equip ++ [t] }
      | some .instructions => st

/-- parseContent of the serverless pipeline: first pass, instructions pass,
then the fallback heuristic. -/
def parseContent (content : Str) (r : RecipeRecord) : RecipeRecord :=
  let lines := content.splitOn '\n'
  let st1 := lines.foldl t1Step { cur := none, ings := [], equip := [] }
  let instrs := tasksInstructions lines
  if st1.ings.isEmpty && instrs.isEmpty then
    let fb := Processor.fallbackLists lines
    { r with ingredients := fb.1, instructions := fb.2, equipment := st1.equip }
  else
    { r with ingredients := st1.ings, instructions := instrs, equipment := st1.equip }

end Tasks

/-! ## Scanner lemmas -/

/-! ## Ingredient map lemmas -/

/-- Deduplicated map over already-processed (name, info) pairs. -/
def buildPairs (pairs : List (Str × IngredientInfo)) : List (Str × IngredientInfo) :=
  pairs.foldl (fun m p => insertIngredient m p.1 p.2) []

/-- Entry the dedup rule keeps for a name: the first occurrence carrying a
truthy amount when one exists, else the first occurrence. -/
def firstKeptInfo (pairs : List (Str × IngredientInfo)) (name : Str) :
    Option IngredientInfo :=
  match (pairs.filter (fun p => p.1 == name)).find? (fun p => strTruthy p.2.amount) with
  | some p => some p.2
  | none => ((pairs.filter (fun p => p.1 == name)).head?).map (fun p => p.2)

/-! ## Provenance and spec-parse characterization -/

/-! ## Verbatim pass-through lemmas -/

/-! ## Word-wrap characterization -/

/-- Space join of a group of words. -/
def joinSpace (g : List Str) : Str := List.intercalate [' '] g

/-- Greedy extension of the current line while the next word still fits. -/
def greedyTake (maxWidth : Nat) : Str → List Str → (Str × List Str)
  | cur, [] => (cur, [])
  | cur, w :: ws =>
    if (cur ++ ' ' :: w).length ≤ maxWidth then greedyTake maxWidth (cur ++ ' ' :: w) ws
    else (cur, w :: ws)

/-- Greedy extension at the level of word groups. -/
def greedyTakeG (maxWidth : Nat) : List Str → List Str → (List Str × List Str)
  | g, [] => (g, [])
  | g, w :: ws =>
    if (joinSpace g ++ ' ' :: w).length ≤ maxWidth then greedyTakeG maxWidth (g ++ [w]) ws
    else (g, w :: ws)

/-- Greedy line decomposition with explicit fuel. -/
def greedyLines (maxWidth : Nat) : Nat → List Str → List Str
  | _, [] => []
  | 0, _ => []
  | f + 1, w :: ws =>
    (greedyTake maxWidth w ws).1 ::
      greedyLines maxWidth f (greedyTake maxWidth w ws).2

/-- Greedy group decomposition with explicit fuel. -/
def greedyGroupsAux (maxWidth : Nat) : Nat → List Str → List (List Str)
  | _, [] => []
  | 0, _ => []
  | f + 1, w :: ws =>
    (greedyTakeG maxWidth [w] ws).1 ::
      greedyGroupsAux maxWidth f (greedyTakeG maxWidth [w] ws).2

/-- Greedy group decomposition of a word list. -/
def greedyGroups (maxWidth : Nat) (words : List Str) : List (List Str) :=
  greedyGroupsAux maxWidth words.length words

/-! ## Claim-side definitions -/

/-- Number in the sense of the original C2 claim: an optional leading minus
sign, then digits with at most one decimal point. -/
def isClaimNumber (s : Str) : Bool :=
  let core := match s with
    | c :: rest => if c == '-' then rest else s
    | [] => s
  !core.isEmpty && core.all (fun c => isDig c || c == '.') &&
    core.any isDig && (core.filter (fun c => c == '.')).length ≤ 1

/-- Test whether a spec splits as claim-number, percent, unit-text. -/
def c2OrigSpecMatch (spec : Str) : Bool :=
  (List.range (spec.length + 1)).any (fun i =>
    match spec.drop i with
    | c :: _ => c == '%' && isClaimNumber (spec.take i)
    | [] => false)

/-- Title the C7 claim predicts: both hyphens and underscores replaced by
spaces before title-casing. -/
def c7ClaimTitle (f : Str) : Str :=
  upWordInit none (f.map (fun c => if c == '-' || c == '_' then ' ' else c))

/-- Empty recipe record used to run parseContent in isolation. -/
def emptyRecipeRecord : RecipeRecord :=
  { filename := [], slug := [], title := [], tags := [], categories := [],
    servings := none, prepTime := none, cookTime := none, ingredients := [],
    instructions := [], equipment := [], rawMarkdown := [] }

/-- The fixed each-block template used in the C4 analysis. -/
def c4Tmpl : Str := str "A\x7b\x7b#each items\x7d\x7dx\x7b\x7b/each\x7d\x7dB"

/-- The fixed if-else template used in the C5 analysis. -/
def c5Tmpl : Str := str "\x7b\x7b#if k\x7d\x7dT\x7b\x7belse\x7d\x7dE\x7b\x7b/if\x7d\x7d"

/-- Claim-side truthiness of C5: the then-branch for a list iff it is
non-empty, and for any other value iff it is not null, not undefined, not
false and not the empty string — a reading under which every number takes
the then-branch. -/
def c5ClaimThen : Option Value → Bool
  | none => false
  | some (.list l) => !l.isEmpty
  | some .null => false
  | some (.bool b) => b
  | some (.str s) => !s.isEmpty
  | some (.num _) => true
  | some (.obj _) => true

/-- The unmatched each-block template used in the C9 analysis. -/
def c9Tmpl : Str := str "\x7b\x7b#each items\x7d\x7d\x7b\x7bname\x7d\x7d"

/-- One accumulation step of the wrap loop: a space is inserted before the
next token only when the current line is non-empty. -/
def lineStep (cur w : Str) : Str := if cur.isEmpty then w else cur ++ ' ' :: w

/-- The line text produced by accumulating a group of split tokens, exactly
as the wrap loop builds its current line. -/
def lineJoin (g : List Str) : Str := g.foldl lineStep []

/-- Group-level mirror of wrapLoop: the same greedy loop tracking each
line's split tokens instead of its text. -/
def groupsLoop (maxWidth : Nat) : List Str → List (List Str) → List Str → List (List Str)
  | [], gss, g => if (lineJoin g).isEmpty then gss else gss ++ [g]
  | w :: ws, gss, g =>
    if (lineJoin g ++ ' ' :: w).length ≤ maxWidth then
      groupsLoop maxWidth ws gss (g ++ [w])
    else if (lineJoin g).isEmpty then
      groupsLoop maxWidth ws gss (g ++ [w])
    else
      groupsLoop maxWidth ws (gss ++ [g]) [w]

/-- The unmatched if-block template used in the C9 analysis. -/
def c9IfTmpl : Str := str "\x7b\x7b#if items\x7d\x7d\x7b\x7bname\x7d\x7d"

/-! ## Theorems -/

example : tokenizeIngredients (str "@flour\x7b250%g\x7d and @flour\x7b\x7d") =
    [(str "flour",
      { amount := some (str "250"), unit := some (str "g"), spec := str "250%g" })] := by
  decide

example : tokenizeIngredients (str "@flour\x7b\x7d and @flour\x7b250%g\x7d") =
    [(str "flour",
      { amount := some (str "250"), unit := some (str "g"), spec := str "250%g" })] := by
  decide

example : tokenizeIngredients (str "@a@b\x7b1-2%x\x7d") =
    [(str "a@b",
      { amount := some (str "1-2"), unit := some (str "x"), spec := str "1-2%x" })] := by
  decide

example :
    lineStepText (str "Mix @flour\x7b250%g\x7d and @sugar\x7b150%g\x7d in a bowl.") =
      str "Mix flour and sugar in a bowl." := by decide

example :
    annotationLine
      (tokenizeIngredients (str "Mix @flour\x7b250%g\x7d and @sugar\x7b150%g\x7d in a bowl."))
      (str "Mix flour and sugar in a bowl.") =
    str "[flour: 250 g; sugar: 150 g]" := by decide

example : annotationLine [] (str "Serve.") = str "[–]" := by decide

example :
    wrapStepText (List.replicate 76 'a' ++ ' ' :: str "bcde") 80 =
      List.replicate 76 'a' ++ str "\n    bcde" := by decide

example : wrapStepText (List.replicate 85 'a') 80 = List.replicate 85 'a' := by rfl

example :
    renderTemplate 5
      (str "\x7b\x7b#each items\x7d\x7d\x7b\x7bthis\x7d\x7d \x7b\x7b/each\x7d\x7d")
      [(str "items", Value.list [Value.str (str "a"), Value.str (str "b")])] =
    .ok (str "a b ") := by rfl

example :
    renderTemplate 6
      (str "\x7b\x7b#each items\x7d\x7d\x7b\x7b#if flag\x7d\x7d\x7b\x7bname\x7d\x7d\x7b\x7b/if\x7d\x7d\x7b\x7b/each\x7d\x7d")
      [(str "items", Value.list
        [Value.obj [(str "name", Value.str (str "A")), (str "flag", Value.bool true)],
         Value.obj [(str "name", Value.str (str "B")), (str "flag", Value.bool false)]])] =
    .ok (str "A") := by rfl

example :
    renderTemplate 3 (str "\x7b\x7bx\x7d\x7d")
      [(str "x", Value.str (str "<b>"))] = .ok (str "&lt;b&gt;") := by rfl

example :
    renderTemplate 3 (str "\x7b\x7b&x\x7d\x7d")
      [(str "x", Value.str (str "<b>"))] = .ok (str "<b>") := by rfl

example :
    renderTemplate 5 (str "A\x7b\x7b#each items\x7d\x7dx\x7b\x7b/each\x7d\x7dB") [] =
    .ok (str "AB") := by rfl

example :
    renderTemplate 5 (str "A\x7b\x7b#each items\x7d\x7dx\x7b\x7b/each\x7d\x7dB")
      [(str "items", Value.str (str "abc"))] =
    .error (str "TypeError: array.map is not a function") := by rfl

example :
    renderTemplate 5
      (str "\x7b\x7b#if k\x7d\x7dT\x7b\x7belse\x7d\x7dE\x7b\x7b/if\x7d\x7d")
      [(str "k", Value.num 0)] = .ok (str "E") := by rfl

example :
    renderTemplate 5
      (str "\x7b\x7b#if k\x7d\x7dT\x7b\x7belse\x7d\x7dE\x7b\x7b/if\x7d\x7d")
      [(str "k", Value.num 2)] = .ok (str "T") := by rfl

example :
    renderTemplate 5 (str "\x7b\x7b#each items\x7d\x7d\x7b\x7bname\x7d\x7d")
      [(str "name", Value.str (str "X"))] =
    .ok (str "\x7b\x7b#each items\x7d\x7dX") := by rfl

example :
    (Processor.parseRecipe (str "x") (str "my_recipe")).title = str "My_recipe" := by
  decide

example :
    (Processor.parseRecipe (str "x") (str "my-great-recipe")).title =
      str "My Great Recipe" := by decide

example :
    (Tasks.parseContent
      (str "## Steps\n1. Mix well\n2. author: Jane Doe\n3. Bake")
      { filename := [], slug := [], title := [], tags := [], categories := [],
        servings := none, prepTime := none, cookTime := none, ingredients := [],
        instructions := [], equipment := [], rawMarkdown := [] }).instructions =
    [str "Mix well", str "Bake"] := by decide

theorem mem_takeWhile_true {p : Char → Bool} :
    ∀ (l : Str) (c : Char), c ∈ l.takeWhile p → p c = true := by
  intro l
  induction l with
  | nil => intro c h; simp [List.takeWhile] at h
  | cons a as ih =>
    intro c h
    by_cases ha : p a = true
    · rw [List.takeWhile_cons, if_pos ha] at h
      rcases List.mem_cons.mp h with h1 | h2
      · exact h1 ▸ ha
      · exact ih c h2
    · rw [List.takeWhile_cons, if_neg ha] at h
      simp at h

theorem dropWhile_head_false {p : Char → Bool} :
    ∀ (l : Str) (b : Char) (r : Str), l.dropWhile p = b :: r → p b = false := by
  intro l
  induction l with
  | nil => intro b r h; simp [List.dropWhile] at h
  | cons a as ih =>
    intro b r h
    by_cases ha : p a = true
    · rw [List.dropWhile_cons, if_pos ha] at h
      exact ih b r h
    · rw [List.dropWhile_cons, if_neg ha] at h
      cases h
      exact Bool.not_eq_true _ ▸ (by simpa using ha)

theorem takeWhile_append_all {p : Char → Bool} :
    ∀ (xs : Str) (y : Char) (ys : Str), (∀ c ∈ xs, p c = true) → p y = false →
      (xs ++ y :: ys).takeWhile p = xs := by
  intro xs
  induction xs with
  | nil => intro y ys _ hy; simpa [List.takeWhile_cons] using hy
  | cons a as ih =>
    intro y ys hall hy
    have ha : p a = true := hall a (List.mem_cons_self a as)
    simp only [List.cons_append, List.takeWhile_cons, if_pos ha]
    rw [ih y ys (fun c hc => hall c (List.mem_cons_of_mem a hc)) hy]

theorem dropWhile_append_all {p : Char → Bool} :
    ∀ (xs : Str) (y : Char) (ys : Str), (∀ c ∈ xs, p c = true) → p y = false →
      (xs ++ y :: ys).dropWhile p = y :: ys := by
  intro xs
  induction xs with
  | nil => intro y ys _ hy; simp [List.dropWhile_cons, hy]
  | cons a as ih =>
    intro y ys hall hy
    have ha : p a = true := hall a (List.mem_cons_self a as)
    simp only [List.cons_append, List.dropWhile_cons, if_pos ha]
    exact ih y ys (fun c hc => hall c (List.mem_cons_of_mem a hc)) hy

theorem tryMatch_sound {cs n s r : Str} (h : tryMatch cs = some (n, s, r)) :
    cs = n ++ lbrace :: (s ++ rbrace :: r) ∧ n ≠ [] ∧
      (∀ c ∈ n, isBrace c = false) ∧ (∀ c ∈ s, (c == rbrace) = false) := by
  simp only [tryMatch] at h
  rcases hdrop : cs.dropWhile (fun c => !isBrace c) with _ | ⟨b, r2⟩ <;> rw [hdrop] at h <;>
    dsimp only at h
  · exact absurd h (by simp)
  · by_cases hne : (cs.takeWhile (fun c => !isBrace c)).isEmpty = true
    · rw [if_pos hne] at h; exact absurd h (by simp)
    · rw [if_neg hne] at h
      by_cases hb : (b == lbrace) = true
      · rw [if_pos hb] at h
        rcases hdrop2 : r2.dropWhile (fun c => c != rbrace) with _ | ⟨x, r3⟩ <;>
          rw [hdrop2] at h <;> dsimp only at h
        · exact absurd h (by simp)
        · simp only [Option.some.injEq, Prod.mk.injEq] at h
          obtain ⟨hn, hs, hr⟩ := h
          have hx : (x != rbrace) = false := dropWhile_head_false r2 x r3 hdrop2
          have hxe : x = rbrace := by
            simpa [bne] using hx
          have hcs : cs = n ++ b :: r2 := by
            rw [← hn, ← hdrop, List.takeWhile_append_dropWhile]
          have hr2 : r2 = s ++ x :: r3 := by
            rw [← hs, ← hdrop2, List.takeWhile_append_dropWhile]
          refine ⟨?_, ?_, ?_, ?_⟩
          · rw [hcs, hr2, (by simpa using hb : b = lbrace), hxe, hr]
          · intro hcon
            rw [← hn] at hcon
            simp [hcon] at hne
          · intro c hc
            rw [← hn] at hc
            have := mem_takeWhile_true (p := fun c => !isBrace c) cs c hc
            simpa using this
          · intro c hc
            rw [← hs] at hc
            have := mem_takeWhile_true (p := fun c => c != rbrace) r2 c hc
            simpa [bne] using this
      · rw [if_neg hb] at h; exact absurd h (by simp)

theorem tryMatch_complete (n s r : Str) (hn : n ≠ [])
    (hnb : ∀ c ∈ n, isBrace c = false) (hs : ∀ c ∈ s, (c == rbrace) = false) :
    tryMatch (n ++ lbrace :: (s ++ rbrace :: r)) = some (n, s, r) := by
  have h1 : ((n ++ lbrace :: (s ++ rbrace :: r)).takeWhile fun c => !isBrace c) = n :=
    takeWhile_append_all n lbrace (s ++ rbrace :: r)
      (fun c hc => by simp [hnb c hc]) (by simp [isBrace])
  have h2 : ((n ++ lbrace :: (s ++ rbrace :: r)).dropWhile fun c => !isBrace c) =
      lbrace :: (s ++ rbrace :: r) :=
    dropWhile_append_all n lbrace (s ++ rbrace :: r)
      (fun c hc => by simp [hnb c hc]) (by simp [isBrace])
  have h3 : ((s ++ rbrace :: r).takeWhile fun c => c != rbrace) = s :=
    takeWhile_append_all s rbrace r
      (fun c hc => by simp [bne]; simpa using hs c hc) (by simp [bne])
  have h4 : ((s ++ rbrace :: r).dropWhile fun c => c != rbrace) = rbrace :: r :=
    dropWhile_append_all s rbrace r
      (fun c hc => by simp [bne]; simpa using hs c hc) (by simp [bne])
  simp only [tryMatch, h1, h2, h3, h4]
  simp [hn]

theorem findRefsAux_fuel_eq (sigil : Char) :
    ∀ f cs, List.length cs ≤ f → findRefsAux sigil f cs = findRefs sigil cs := by
  intro f
  induction f using Nat.strong_induction_on with
  | _ f ih =>
    intro cs hcs
    match f, cs with
    | f, [] => cases f <;> simp [findRefsAux, findRefs]
    | 0, c :: rest => simp at hcs
    | f + 1, c :: rest =>
      have hlen : rest.length ≤ f := by
        simpa using Nat.le_of_succ_le_succ hcs
      by_cases hc : (c == sigil) = true
      · cases htm : tryMatch rest with
        | none =>
          have lhs : findRefsAux sigil (f + 1) (c :: rest) = findRefsAux sigil f rest := by
            simp [findRefsAux, hc, htm]
          have rhs : findRefs sigil (c :: rest) = findRefsAux sigil rest.length rest := by
            simp [findRefs, findRefsAux, hc, htm]
          rw [lhs, rhs, ih f (Nat.lt_succ_self f) rest hlen,
            ih rest.length (Nat.lt_succ_of_le hlen) rest (Nat.le_refl _)]
        | some v =>
          obtain ⟨n, s, r3⟩ := v
          obtain ⟨hdec, -, -, -⟩ := tryMatch_sound htm
          have hr3 : r3.length ≤ rest.length := by
            rw [hdec]; simp; omega
          have lhs : findRefsAux sigil (f + 1) (c :: rest) =
              (n, s) :: findRefsAux sigil f r3 := by
            simp [findRefsAux, hc, htm]
          have rhs : findRefs sigil (c :: rest) =
              (n, s) :: findRefsAux sigil rest.length r3 := by
            simp [findRefs, findRefsAux, hc, htm]
          rw [lhs, rhs, ih f (Nat.lt_succ_self f) r3 (Nat.le_trans hr3 hlen),
            ih rest.length (Nat.lt_succ_of_le hlen) r3 hr3]
      · have hc2 : (c == sigil) = false := by simpa using hc
        have lhs : findRefsAux sigil (f + 1) (c :: rest) = findRefsAux sigil f rest := by
          simp [findRefsAux, hc2]
        have rhs : findRefs sigil (c :: rest) = findRefsAux sigil rest.length rest := by
          simp [findRefs, findRefsAux, hc2]
        rw [lhs, rhs, ih f (Nat.lt_succ_self f) rest hlen,
          ih rest.length (Nat.lt_succ_of_le hlen) rest (Nat.le_refl _)]

theorem findRefs_cons_skip {sigil c : Char} {rest : Str} (h : (c == sigil) = false) :
    findRefs sigil (c :: rest) = findRefs sigil rest := by
  have : findRefs sigil (c :: rest) = findRefsAux sigil rest.length rest := by
    simp [findRefs, findRefsAux, h]
  rw [this, findRefsAux_fuel_eq sigil rest.length rest (Nat.le_refl _)]

theorem findRefs_cons_fail {sigil c : Char} {rest : Str} (hc : (c == sigil) = true)
    (hm : tryMatch rest = none) :
    findRefs sigil (c :: rest) = findRefs sigil rest := by
  have : findRefs sigil (c :: rest) = findRefsAux sigil rest.length rest := by
    simp [findRefs, findRefsAux, hc, hm]
  rw [this, findRefsAux_fuel_eq sigil rest.length rest (Nat.le_refl _)]

theorem findRefs_cons_match {sigil c : Char} {rest n s r3 : Str}
    (hc : (c == sigil) = true) (hm : tryMatch rest = some (n, s, r3)) :
    findRefs sigil (c :: rest) = (n, s) :: findRefs sigil r3 := by
  obtain ⟨hdec, -, -, -⟩ := tryMatch_sound hm
  have hr3 : r3.length ≤ rest.length := by
    rw [hdec]; simp; omega
  have : findRefs sigil (c :: rest) = (n, s) :: findRefsAux sigil rest.length r3 := by
    simp [findRefs, findRefsAux, hc, hm]
  rw [this, findRefsAux_fuel_eq sigil rest.length r3 hr3]

theorem findRefs_append_clean {sigil : Char} :
    ∀ (pre cs : Str), (∀ c ∈ pre, (c == sigil) = false) →
      findRefs sigil (pre ++ cs) = findRefs sigil cs := by
  intro pre
  induction pre with
  | nil => intro cs _; rfl
  | cons a as ih =>
    intro cs h
    rw [List.cons_append, findRefs_cons_skip (h a (List.mem_cons_self a as))]
    exact ih cs (fun c hc => h c (List.mem_cons_of_mem a hc))

theorem findRefs_match_head {sigil : Char} (n s r : Str) (hn : n ≠ [])
    (hnb : ∀ c ∈ n, isBrace c = false) (hs : ∀ c ∈ s, (c == rbrace) = false) :
    findRefs sigil (sigil :: (n ++ lbrace :: (s ++ rbrace :: r))) =
      (n, s) :: findRefs sigil r :=
  findRefs_cons_match (by simp) (tryMatch_complete n s r hn hnb hs)

theorem findRefsAux_shape (sigil : Char) :
    ∀ f cs n s, (n, s) ∈ findRefsAux sigil f cs →
      n ≠ [] ∧ (∀ c ∈ n, isBrace c = false) ∧ (∀ c ∈ s, (c == rbrace) = false) ∧
        ∃ a b, cs = a ++ sigil :: (n ++ lbrace :: (s ++ rbrace :: b)) := by
  intro f
  induction f with
  | zero => intro cs n s h; simp [findRefsAux] at h
  | succ f ih =>
    intro cs n s h
    match cs with
    | [] => simp [findRefsAux] at h
    | c :: rest =>
      by_cases hc : (c == sigil) = true
      · cases htm : tryMatch rest with
        | none =>
          rw [show findRefsAux sigil (f + 1) (c :: rest) = findRefsAux sigil f rest by
            simp [findRefsAux, hc, htm]] at h
          obtain ⟨h1, h2, h3, a, b, hab⟩ := ih rest n s h
          exact ⟨h1, h2, h3, c :: a, b, by rw [List.cons_append, hab]⟩
        | some v =>
          obtain ⟨n0, s0, r3⟩ := v
          rw [show findRefsAux sigil (f + 1) (c :: rest) =
              (n0, s0) :: findRefsAux sigil f r3 by simp [findRefsAux, hc, htm]] at h
          obtain ⟨hdec, hn0, hb0, hs0⟩ := tryMatch_sound htm
          have hcsig : c = sigil := by simpa using hc
          rcases List.mem_cons.mp h with heq | htail
          · obtain ⟨rfl, rfl⟩ := Prod.mk.injEq .. ▸ heq
            refine ⟨hn0, hb0, hs0, [], r3, ?_⟩
            rw [List.nil_append, hcsig, hdec]
          · obtain ⟨h1, h2, h3, a, b, hab⟩ := ih r3 n s htail
            refine ⟨h1, h2, h3,
              c :: (n0 ++ lbrace :: (s0 ++ rbrace :: a)), b, ?_⟩
            rw [hdec, hab]
            simp
      · have hc2 : (c == sigil) = false := by simpa using hc
        rw [show findRefsAux sigil (f + 1) (c :: rest) = findRefsAux sigil f rest by
          simp [findRefsAux, hc2]] at h
        obtain ⟨h1, h2, h3, a, b, hab⟩ := ih rest n s h
        exact ⟨h1, h2, h3, c :: a, b, by rw [List.cons_append, hab]⟩

theorem findRefs_shape {sigil : Char} {cs n s : Str} (h : (n, s) ∈ findRefs sigil cs) :
    n ≠ [] ∧ (∀ c ∈ n, isBrace c = false) ∧ (∀ c ∈ s, (c == rbrace) = false) ∧
      ∃ a b, cs = a ++ sigil :: (n ++ lbrace :: (s ++ rbrace :: b)) :=
  findRefsAux_shape sigil cs.length cs n s h

theorem mapGet_mapSet_self (m : List (Str × IngredientInfo)) (k : Str)
    (v : IngredientInfo) : mapGet (mapSet m k v) k = some v := by
  induction m with
  | nil => simp [mapSet, mapGet]
  | cons p rest ih =>
    obtain ⟨pk, pv⟩ := p
    by_cases hk : pk = k
    · simp [mapSet, mapGet, hk]
    · simp only [mapSet, if_neg hk, mapGet]
      exact ih

theorem mapGet_mapSet_ne (m : List (Str × IngredientInfo)) (k k2 : Str)
    (v : IngredientInfo) (h : k2 ≠ k) : mapGet (mapSet m k v) k2 = mapGet m k2 := by
  induction m with
  | nil =>
    simp only [mapSet, mapGet]
    rw [if_neg (fun hc => h hc.symm)]
  | cons p rest ih =>
    obtain ⟨pk, pv⟩ := p
    by_cases hk : pk = k
    · subst hk
      simp only [mapSet, if_pos rfl, mapGet]
      rw [if_neg (fun hc => h hc.symm), if_neg (fun hc => h hc.symm)]
    · simp only [mapSet, if_neg hk, mapGet]
      by_cases hk2 : pk = k2
      · rw [if_pos hk2, if_pos hk2]
      · rw [if_neg hk2, if_neg hk2]
        exact ih

theorem mapGet_eq_none_iff (m : List (Str × IngredientInfo)) (k : Str) :
    mapGet m k = none ↔ k ∉ m.map Prod.fst := by
  induction m with
  | nil => simp [mapGet]
  | cons p rest ih =>
    obtain ⟨pk, pv⟩ := p
    simp only [mapGet, List.map_cons, List.mem_cons]
    by_cases hk : pk = k
    · rw [if_pos hk]
      constructor
      · intro hcon; cases hcon
      · intro hcon; exact absurd (Or.inl hk.symm) hcon
    · rw [if_neg hk, ih]
      constructor
      · intro hn hor
        rcases hor with he | hm2
        · exact hk he.symm
        · exact hn hm2
      · intro hn hm2
        exact hn (Or.inr hm2)

theorem mapSet_keys_present (m : List (Str × IngredientInfo)) (k : Str)
    (v : IngredientInfo) (h : k ∈ m.map Prod.fst) :
    (mapSet m k v).map Prod.fst = m.map Prod.fst := by
  induction m with
  | nil => simp at h
  | cons p rest ih =>
    obtain ⟨pk, pv⟩ := p
    by_cases hk : pk = k
    · simp [mapSet, hk]
    · simp only [List.map_cons, List.mem_cons] at h
      rcases h with h1 | h2
      · exact absurd h1.symm hk
      · simp only [mapSet, if_neg hk, List.map_cons]
        rw [ih h2]

theorem mapSet_keys_absent (m : List (Str × IngredientInfo)) (k : Str)
    (v : IngredientInfo) (h : k ∉ m.map Prod.fst) :
    (mapSet m k v).map Prod.fst = m.map Prod.fst ++ [k] := by
  induction m with
  | nil => simp [mapSet]
  | cons p rest ih =>
    obtain ⟨pk, pv⟩ := p
    simp only [List.map_cons, List.mem_cons] at h
    push_neg at h
    by_cases hk : pk = k
    · exact absurd hk.symm h.1
    · simp only [mapSet, if_neg hk, List.map_cons]
      rw [ih h.2, List.cons_append]

theorem buildIngredients_eq_buildPairs (occs : List (Str × Str)) :
    buildIngredients occs =
      buildPairs (occs.map (fun occ => (jsTrim occ.1, mkIngredientInfo occ.2))) := by
  simp [buildIngredients, buildPairs, List.foldl_map]

theorem mapGet_insert_self (m : List (Str × IngredientInfo)) (k : Str)
    (v : IngredientInfo) :
    mapGet (insertIngredient m k v) k =
      match mapGet m k with
      | none => some v
      | some stored =>
        if strTruthy v.amount && !strTruthy stored.amount then some v
        else some stored := by
  unfold insertIngredient
  rcases hg : mapGet m k with _ | stored
  · exact mapGet_mapSet_self m k v
  · dsimp only
    rcases hc : (strTruthy v.amount && !strTruthy stored.amount) with _ | _
    · rw [if_neg Bool.false_ne_true, if_neg Bool.false_ne_true]
      exact hg
    · rw [if_pos rfl, if_pos rfl]
      exact mapGet_mapSet_self m k v

theorem mapGet_insert_ne (m : List (Str × IngredientInfo)) (k k2 : Str)
    (v : IngredientInfo) (h : k2 ≠ k) :
    mapGet (insertIngredient m k v) k2 = mapGet m k2 := by
  unfold insertIngredient
  rcases hg : mapGet m k with _ | stored
  · exact mapGet_mapSet_ne m k k2 v h
  · dsimp only
    rcases hc : (strTruthy v.amount && !strTruthy stored.amount) with _ | _
    · rw [if_neg Bool.false_ne_true]
    · rw [if_pos rfl]
      exact mapGet_mapSet_ne m k k2 v h

theorem find?_append_some {α : Type} {p : α → Bool} {l1 l2 : List α} {x : α}
    (h : l1.find? p = some x) : (l1 ++ l2).find? p = some x := by
  induction l1 with
  | nil => simp [List.find?] at h
  | cons a t ih =>
    by_cases hp : p a = true
    · rw [List.find?_cons_of_pos _ hp] at h
      rw [List.cons_append, List.find?_cons_of_pos _ hp]
      exact h
    · rw [List.find?_cons_of_neg _ (by simpa using hp)] at h
      rw [List.cons_append, List.find?_cons_of_neg _ (by simpa using hp)]
      exact ih h

theorem find?_append_none {α : Type} {p : α → Bool} {l1 l2 : List α}
    (h : l1.find? p = none) : (l1 ++ l2).find? p = l2.find? p := by
  induction l1 with
  | nil => simp
  | cons a t ih =>
    by_cases hp : p a = true
    · rw [List.find?_cons_of_pos _ hp] at h; simp at h
    · rw [List.find?_cons_of_neg _ (by simpa using hp)] at h
      rw [List.cons_append, List.find?_cons_of_neg _ (by simpa using hp)]
      exact ih h

theorem buildPairs_append_one (pairs : List (Str × IngredientInfo))
    (p : Str × IngredientInfo) :
    buildPairs (pairs ++ [p]) = insertIngredient (buildPairs pairs) p.1 p.2 := by
  simp [buildPairs, List.foldl_append]

theorem buildPairs_lookup (pairs : List (Str × IngredientInfo)) (name : Str) :
    mapGet (buildPairs pairs) name = firstKeptInfo pairs name := by
  induction pairs using List.reverseRecOn with
  | nil => simp [buildPairs, mapGet, firstKeptInfo]
  | append_singleton xs p ih =>
    rw [buildPairs_append_one]
    by_cases hp : (p.1 == name) = true
    · have hpe : p.1 = name := by simpa using hp
      subst hpe
      have hfil : (xs ++ [p]).filter (fun q => q.1 == p.1) =
          xs.filter (fun q => q.1 == p.1) ++ [p] := by
        rw [List.filter_append]
        simp
      rw [mapGet_insert_self, ih]
      unfold firstKeptInfo
      rw [hfil]
      rcases hmine : xs.filter (fun q => q.1 == p.1) with _ | ⟨a, t⟩ <;> rw [hmine]
      · rcases tr : strTruthy p.2.amount with _ | _
        · simp [List.find?, tr]
        · simp [List.find?, tr]
      · rcases hfind : (a :: t).find? (fun q => strTruthy q.2.amount) with _ | q <;>
          rw [hfind]
        · have ha : strTruthy a.2.amount = false := by
            have := List.find?_eq_none.mp hfind a (List.mem_cons_self a t)
            simpa using this
          rw [find?_append_none hfind]
          rcases tr : strTruthy p.2.amount with _ | _
          · simp [List.find?, tr, ha]
          · simp [List.find?, tr, ha]
        · have hq : strTruthy q.2.amount = true := by
            have := List.find?_some hfind
            simpa using this
          rw [find?_append_some hfind]
          simp [hq]
    · have hne : name ≠ p.1 := by
        intro hcon
        rw [hcon] at hp
        simp at hp
      have hfil : (xs ++ [p]).filter (fun q => q.1 == name) =
          xs.filter (fun q => q.1 == name) := by
        rw [List.filter_append]
        simp [hp]
      rw [mapGet_insert_ne _ _ _ _ hne, ih]
      unfold firstKeptInfo
      rw [hfil]

theorem buildPairs_keys_nodup (pairs : List (Str × IngredientInfo)) :
    ((buildPairs pairs).map Prod.fst).Nodup := by
  induction pairs using List.reverseRecOn with
  | nil => simp [buildPairs]
  | append_singleton xs p ih =>
    rw [buildPairs_append_one]
    unfold insertIngredient
    rcases hg : mapGet (buildPairs xs) p.1 with _ | stored
    · have habs : p.1 ∉ (buildPairs xs).map Prod.fst :=
        (mapGet_eq_none_iff _ _).mp hg
      rw [mapSet_keys_absent _ _ _ habs]
      simp only [List.nodup_append, List.nodup_cons, List.nodup_nil]
      refine ⟨ih, ⟨by simp, trivial⟩, ?_⟩
      intro x hx hcon
      rcases List.mem_singleton.mp hcon with rfl
      exact habs hx
    · dsimp only
      rcases hc : (strTruthy p.2.amount && !strTruthy stored.amount) with _ | _
      · rw [if_neg Bool.false_ne_true]
        exact ih
      · have hpres : p.1 ∈ (buildPairs xs).map Prod.fst := by
          by_contra hcon
          rw [(mapGet_eq_none_iff _ _).mpr hcon] at hg
          cases hg
        rw [if_pos rfl, mapSet_keys_present _ _ _ hpres]
        exact ih

theorem mem_mapSet {m : List (Str × IngredientInfo)} {k : Str} {v : IngredientInfo}
    {q : Str × IngredientInfo} (h : q ∈ mapSet m k v) : q ∈ m ∨ q = (k, v) := by
  induction m with
  | nil => simpa [mapSet] using h
  | cons p rest ih =>
    obtain ⟨pk, pv⟩ := p
    by_cases hk : pk = k
    · rw [mapSet, if_pos hk] at h
      rcases List.mem_cons.mp h with h1 | h2
      · right; rw [h1, hk]
      · left; exact List.mem_cons_of_mem _ h2
    · rw [mapSet, if_neg hk] at h
      rcases List.mem_cons.mp h with h1 | h2
      · left; exact h1 ▸ List.mem_cons_self _ _
      · rcases ih h2 with h3 | h4
        · left; exact List.mem_cons_of_mem _ h3
        · right; exact h4

theorem mem_insertIngredient {m : List (Str × IngredientInfo)} {k : Str}
    {v : IngredientInfo} {q : Str × IngredientInfo}
    (h : q ∈ insertIngredient m k v) : q ∈ m ∨ q = (k, v) := by
  unfold insertIngredient at h
  rcases hg : mapGet m k with _ | stored <;> rw [hg] at h
  · exact mem_mapSet h
  · dsimp only at h
    rcases hc : (strTruthy v.amount && !strTruthy stored.amount) with _ | _
    · rw [hc] at h
      rw [if_neg Bool.false_ne_true] at h
      exact Or.inl h
    · rw [hc] at h
      rw [if_pos rfl] at h
      exact mem_mapSet h

theorem mem_buildPairs {pairs : List (Str × IngredientInfo)}
    {q : Str × IngredientInfo} (h : q ∈ buildPairs pairs) : q ∈ pairs := by
  induction pairs using List.reverseRecOn with
  | nil => simpa [buildPairs] using h
  | append_singleton xs p ih =>
    rw [buildPairs_append_one] at h
    rcases mem_insertIngredient h with h1 | h2
    · exact List.mem_append_left _ (ih h1)
    · rw [h2]
      exact List.mem_append_right _ (by simp)

theorem mem_tokenizeIngredients {input name : Str} {info : IngredientInfo}
    (h : (name, info) ∈ tokenizeIngredients input) :
    ∃ rawn raws, (rawn, raws) ∈ findRefs '@' input ∧
      name = jsTrim rawn ∧ info = mkIngredientInfo raws := by
  unfold tokenizeIngredients at h
  rw [buildIngredients_eq_buildPairs] at h
  have hm := mem_buildPairs h
  rcases List.mem_map.mp hm with ⟨occ, hocc, heq⟩
  exact ⟨occ.1, occ.2, hocc, congrArg Prod.fst heq.symm, congrArg Prod.snd heq.symm⟩

theorem mem_trimL {c : Char} {s : Str} (h : c ∈ trimL s) : c ∈ s :=
  (List.dropWhile_sublist isWS).mem h

theorem mem_trimR {c : Char} {s : Str} (h : c ∈ trimR s) : c ∈ s := by
  unfold trimR at h
  rw [List.mem_reverse] at h
  exact List.mem_reverse.mp ((List.dropWhile_sublist isWS).mem h)

theorem mem_jsTrim {c : Char} {s : Str} (h : c ∈ jsTrim s) : c ∈ s :=
  mem_trimL (mem_trimR h)

theorem specAmountUnit_pct (num u : Str) (hnum : !num.isEmpty && num.all isNumRunChar)
    (hu : !u.isEmpty && u.all (fun c => !isLineTerm c)) :
    specAmountUnit (num ++ '%' :: u) = (some num, some (jsTrim u)) := by
  have hnz : num ≠ [] := by
    intro hcon
    rw [hcon] at hnum
    simp at hnum
  have hall : ∀ c ∈ num, isNumRunChar c = true := by
    intro c hc
    exact List.all_eq_true.mp (Bool.and_elim_right hnum) c hc
  have h1 : ((num ++ '%' :: u).takeWhile isNumRunChar) = num :=
    takeWhile_append_all num '%' u hall (by decide)
  have h2 : ((num ++ '%' :: u).dropWhile isNumRunChar) = '%' :: u :=
    dropWhile_append_all num '%' u hall (by decide)
  have hc1 : (!num.isEmpty) = true := Bool.and_elim_left hnum
  have hc2 : (!u.isEmpty) = true := Bool.and_elim_left hu
  have hc3 : (u.all fun c => !isLineTerm c) = true := Bool.and_elim_right hu
  unfold specAmountUnit
  rw [if_neg (by simp [hnz])]
  rw [h1, h2]
  dsimp only
  rw [if_pos (by simp [hc1, hc2, hc3])]

theorem specAmountUnit_no_pct (spec : Str)
    (h : ¬ ∃ num u, spec = num ++ '%' :: u ∧ (!num.isEmpty && num.all isNumRunChar) = true ∧
      (!u.isEmpty && u.all (fun c => !isLineTerm c)) = true) :
    specAmountUnit spec =
      (if spec.isEmpty then (none, none)
       else if isDig (spec.headD ' ') then (some spec, none) else (none, none)) := by
  by_cases he : spec.isEmpty
  · unfold specAmountUnit
    rw [if_pos he, if_pos he]
  · unfold specAmountUnit
    rw [if_neg he, if_neg he]
    rcases hdw : spec.dropWhile isNumRunChar with _ | ⟨p, u⟩
    · rfl
    · dsimp only
      have hcond : (!(spec.takeWhile isNumRunChar).isEmpty && p == '%' &&
          !u.isEmpty && u.all fun c => !isLineTerm c) = false := by
        by_contra hcon
        rw [Bool.not_eq_false] at hcon
        simp only [Bool.and_eq_true] at hcon
        obtain ⟨⟨⟨hrun0, hp0⟩, hue0⟩, hulσ⟩ := hcon
        have hrun : (spec.takeWhile isNumRunChar).isEmpty = false := by simpa using hrun0
        have hp : p = '%' := by simpa using hp0
        have hue : u.isEmpty = false := by simpa using hue0
        refine h ⟨spec.takeWhile isNumRunChar, u, ?_, ?_, ?_⟩
        · conv_lhs => rw [← List.takeWhile_append_dropWhile isNumRunChar spec]
          rw [hdw, hp]
        · rw [hrun]
          simp only [Bool.not_false, Bool.true_and]
          exact List.all_eq_true.mpr (fun c hc => List.mem_takeWhile_imp hc)
        · rw [hue]
          simp only [Bool.not_false, Bool.true_and]
          exact hulσ
      rw [if_neg (by rw [hcond]; exact Bool.false_ne_true)]

theorem findRefs_no_brace {sigil : Char} {cs : Str}
    (h : ∀ c ∈ cs, isBrace c = false) : findRefs sigil cs = [] := by
  rcases hr : findRefs sigil cs with _ | ⟨⟨n, s⟩, t⟩
  · rfl
  · have hmem : (n, s) ∈ findRefs sigil cs := by rw [hr]; exact List.mem_cons_self _ _
    obtain ⟨-, -, -, a, b, hab⟩ := findRefs_shape hmem
    have : lbrace ∈ cs := by
      rw [hab]
      simp
    have := h lbrace this
    simp [isBrace] at this

theorem replRefsAux_id (sigil : Char) :
    ∀ f cs, (∀ c ∈ cs, isBrace c = false) → replRefsAux sigil f cs = cs := by
  intro f
  induction f with
  | zero => intro cs _; cases cs <;> rfl
  | succ f ih =>
    intro cs h
    match cs with
    | [] => rfl
    | c :: rest =>
      have hrest : ∀ x ∈ rest, isBrace x = false :=
        fun x hx => h x (List.mem_cons_of_mem c hx)
      by_cases hc : (c == sigil) = true
      · cases htm : tryMatch rest with
        | none => simp [replRefsAux, hc, htm, ih rest hrest]
        | some v =>
          obtain ⟨n, s, r3⟩ := v
          obtain ⟨hdec, -, -, -⟩ := tryMatch_sound htm
          have : lbrace ∈ rest := by rw [hdec]; simp
          have := hrest lbrace this
          simp [isBrace] at this
      · have hc2 : (c == sigil) = false := by simpa using hc
        simp [replRefsAux, hc2, ih rest hrest]

theorem tryTimer_no_brace {cs : Str} (h : ∀ c ∈ cs, isBrace c = false) :
    tryTimer cs = none := by
  cases cs with
  | nil => rfl
  | cons b r1 =>
    have hb : isBrace b = false := h b (List.mem_cons_self _ _)
    have hbl : (b == lbrace) = false := by
      by_cases hbb : (b == lbrace) = true
      · exfalso; simp [isBrace, hbb] at hb
      · simpa using hbb
    unfold tryTimer
    dsimp only
    rw [hbl, if_neg Bool.false_ne_true]

theorem replTimersAux_id :
    ∀ f cs, (∀ c ∈ cs, isBrace c = false) → replTimersAux f cs = cs := by
  intro f
  induction f with
  | zero => intro cs _; cases cs <;> rfl
  | succ f ih =>
    intro cs h
    match cs with
    | [] => rfl
    | c :: rest =>
      have hrest : ∀ x ∈ rest, isBrace x = false :=
        fun x hx => h x (List.mem_cons_of_mem c hx)
      have htm : tryTimer rest = none := tryTimer_no_brace hrest
      by_cases hc : (c == '~') = true
      · simp [replTimersAux, hc, htm, ih rest hrest]
      · have hc2 : (c == '~') = false := by simpa using hc
        simp [replTimersAux, hc2, ih rest hrest]

theorem lineStepText_id {line : Str} (h : ∀ c ∈ line, isBrace c = false) :
    lineStepText line = jsTrim line := by
  unfold lineStepText replRefs replTimers
  rw [replRefsAux_id '@' line.length line h,
    replRefsAux_id '#' line.length line h,
    replTimersAux_id line.length line h]

theorem mem_intercalate_single (x : Char) :
    ∀ (ls : List Str) (l : Str), l ∈ ls → ∀ c ∈ l, c ∈ [x].intercalate ls := by
  intro ls
  induction ls with
  | nil => intro l hl; simp at hl
  | cons a t ih =>
    intro l hl c hc
    match t with
    | [] =>
      rcases List.mem_singleton.mp hl with rfl
      simpa [List.intercalate, List.intersperse] using hc
    | b :: t2 =>
      have hun : [x].intercalate (a :: b :: t2) = a ++ x :: [x].intercalate (b :: t2) := by
        simp [List.intercalate, List.intersperse]
      rw [hun]
      rcases List.mem_cons.mp hl with rfl | hl2
      · exact List.mem_append_left _ hc
      · exact List.mem_append_right _ (List.mem_cons_of_mem _ (ih l hl2 c hc))

theorem mem_of_mem_splitOn {x c : Char} {l s : Str}
    (hl : l ∈ s.splitOn x) (hc : c ∈ l) : c ∈ s := by
  have := mem_intercalate_single x (s.splitOn x) l hl c hc
  rwa [List.intercalate_splitOn] at this

theorem mem_stripFrontmatter {c : Char} {s : Str} (h : c ∈ stripFrontmatter s) :
    c ∈ s := by
  unfold stripFrontmatter at h
  by_cases hp : (str "---\n").isPrefixOf s = true
  · rw [if_pos hp] at h
    rcases hi : idxOf (str "\n---") (s.drop 4) with _ | i <;> rw [hi] at h
    · exact mem_jsTrim h
    · exact List.drop_subset _ _ (mem_jsTrim h)
  · rw [if_neg hp] at h
    exact mem_jsTrim h

theorem stepTexts_verbatim (input : Str) (h : ∀ c ∈ input, isBrace c = false) :
    stepTexts input =
      (((stripFrontmatter input).splitOn '\n').filter
        (fun l => !(jsTrim l).isEmpty)).map jsTrim := by
  show ((((stripFrontmatter input).splitOn '\n').filter
      (fun l => !(jsTrim l).isEmpty)).map lineStepText).filter
      (fun s => !s.isEmpty) = _
  have hline : ∀ l ∈ ((stripFrontmatter input).splitOn '\n').filter
      (fun l => !(jsTrim l).isEmpty), lineStepText l = jsTrim l := by
    intro l hl
    have hl2 := List.mem_of_mem_filter hl
    exact lineStepText_id (fun c hc =>
      h c (mem_stripFrontmatter (mem_of_mem_splitOn hl2 hc)))
  rw [List.map_congr_left hline]
  rw [List.filter_eq_self.mpr]
  intro a ha
  rcases List.mem_map.mp ha with ⟨l, hl, rfl⟩
  have := List.of_mem_filter hl
  simpa using this

theorem joinSpace_single (a : Str) : joinSpace [a] = a := by
  simp [joinSpace, List.intercalate, List.intersperse]

theorem joinSpace_cons_cons (a b : Str) (t : List Str) :
    joinSpace (a :: b :: t) = a ++ ' ' :: joinSpace (b :: t) := by
  simp [joinSpace, List.intercalate, List.intersperse]

theorem joinSpace_append_one (g : List Str) (w : Str) (h : g ≠ []) :
    joinSpace (g ++ [w]) = joinSpace g ++ ' ' :: w := by
  induction g with
  | nil => exact absurd rfl h
  | cons a t ih =>
    match t with
    | [] =>
      rw [List.cons_append, List.nil_append, joinSpace_cons_cons, joinSpace_single,
        joinSpace_single]
    | b :: t2 =>
      have h1 : (a :: b :: t2) ++ [w] = a :: ((b :: t2) ++ [w]) := by simp
      rw [h1]
      have h2 : (b :: t2) ++ [w] = b :: (t2 ++ [w]) := by simp
      rw [h2, joinSpace_cons_cons, ← h2, ih (by simp), joinSpace_cons_cons]
      simp [List.append_assoc]

theorem greedyTake_eq_g (maxWidth : Nat) :
    ∀ ws g, g ≠ [] →
      greedyTake maxWidth (joinSpace g) ws =
        (joinSpace (greedyTakeG maxWidth g ws).1, (greedyTakeG maxWidth g ws).2) := by
  intro ws
  induction ws with
  | nil => intro g _; rfl
  | cons w ws ih =>
    intro g hg
    unfold greedyTake greedyTakeG
    by_cases hf : (joinSpace g ++ ' ' :: w).length ≤ maxWidth
    · rw [if_pos hf, if_pos hf, ← joinSpace_append_one g w hg]
      exact ih (g ++ [w]) (by simp)
    · rw [if_neg hf, if_neg hf]

theorem greedyTake_rest_le (maxWidth : Nat) :
    ∀ ws cur, (greedyTake maxWidth cur ws).2.length ≤ ws.length := by
  intro ws
  induction ws with
  | nil => intro cur; simp [greedyTake]
  | cons w ws ih =>
    intro cur
    unfold greedyTake
    by_cases hf : (cur ++ ' ' :: w).length ≤ maxWidth
    · rw [if_pos hf]
      exact Nat.le_trans (ih (cur ++ ' ' :: w)) (Nat.le_succ _)
    · rw [if_neg hf]

theorem greedyTakeG_rest_le (maxWidth : Nat) :
    ∀ ws g, (greedyTakeG maxWidth g ws).2.length ≤ ws.length := by
  intro ws
  induction ws with
  | nil => intro g; simp [greedyTakeG]
  | cons w ws ih =>
    intro g
    unfold greedyTakeG
    by_cases hf : (joinSpace g ++ ' ' :: w).length ≤ maxWidth
    · rw [if_pos hf]
      exact Nat.le_trans (ih (g ++ [w])) (Nat.le_succ _)
    · rw [if_neg hf]

theorem greedyTakeG_rest_mem (maxWidth : Nat) :
    ∀ ws g x, x ∈ (greedyTakeG maxWidth g ws).2 → x ∈ ws := by
  intro ws
  induction ws with
  | nil => intro g x hx; simpa [greedyTakeG] using hx
  | cons w ws ih =>
    intro g x hx
    unfold greedyTakeG at hx
    by_cases hf : (joinSpace g ++ ' ' :: w).length ≤ maxWidth
    · rw [if_pos hf] at hx
      exact List.mem_cons_of_mem _ (ih (g ++ [w]) x hx)
    · rw [if_neg hf] at hx
      exact hx

theorem greedyTakeG_join (maxWidth : Nat) :
    ∀ ws g, (greedyTakeG maxWidth g ws).1 ++ (greedyTakeG maxWidth g ws).2 = g ++ ws := by
  intro ws
  induction ws with
  | nil => intro g; simp [greedyTakeG]
  | cons w ws ih =>
    intro g
    unfold greedyTakeG
    by_cases hf : (joinSpace g ++ ' ' :: w).length ≤ maxWidth
    · rw [if_pos hf, ih (g ++ [w])]
      simp
    · rw [if_neg hf]

theorem greedyTakeG_group_ne (maxWidth : Nat) :
    ∀ ws g, g ≠ [] → (greedyTakeG maxWidth g ws).1 ≠ [] := by
  intro ws
  induction ws with
  | nil => intro g hg; simpa [greedyTakeG] using hg
  | cons w ws ih =>
    intro g hg
    unfold greedyTakeG
    by_cases hf : (joinSpace g ++ ' ' :: w).length ≤ maxWidth
    · rw [if_pos hf]
      exact ih (g ++ [w]) (by simp)
    · rw [if_neg hf]
      exact hg

theorem greedyTakeG_head (maxWidth : Nat) :
    ∀ ws g, g ≠ [] → (greedyTakeG maxWidth g ws).1.headD [] = g.headD [] := by
  intro ws
  induction ws with
  | nil => intro g _; rfl
  | cons w ws ih =>
    intro g hg
    unfold greedyTakeG
    by_cases hf : (joinSpace g ++ ' ' :: w).length ≤ maxWidth
    · rw [if_pos hf, ih (g ++ [w]) (by simp)]
      match g, hg with
      | a :: t, _ => simp
    · rw [if_neg hf]

theorem greedyTakeG_fits (maxWidth : Nat) :
    ∀ ws g, g ≠ [] →
      (joinSpace (greedyTakeG maxWidth g ws).1).length ≤ maxWidth ∨
        (greedyTakeG maxWidth g ws).1 = g := by
  intro ws
  induction ws with
  | nil => intro g _; right; rfl
  | cons w ws ih =>
    intro g hg
    unfold greedyTakeG
    by_cases hf : (joinSpace g ++ ' ' :: w).length ≤ maxWidth
    · rw [if_pos hf]
      rcases ih (g ++ [w]) (by simp) with h1 | h2
      · exact Or.inl h1
      · left
        rw [h2, joinSpace_append_one g w hg]
        exact hf
    · rw [if_neg hf]
      right; rfl

theorem greedyTakeG_break (maxWidth : Nat) :
    ∀ ws g w2 rest2, (greedyTakeG maxWidth g ws).2 = w2 :: rest2 →
      maxWidth < (joinSpace (greedyTakeG maxWidth g ws).1).length + 1 + w2.length := by
  intro ws
  induction ws with
  | nil => intro g w2 rest2 h; simp [greedyTakeG] at h
  | cons w ws ih =>
    intro g w2 rest2 h
    unfold greedyTakeG at h ⊢
    by_cases hf : (joinSpace g ++ ' ' :: w).length ≤ maxWidth
    · rw [if_pos hf] at h ⊢
      exact ih (g ++ [w]) w2 rest2 h
    · rw [if_neg hf] at h ⊢
      dsimp only at h ⊢
      injection h with h1 h2
      subst h1
      simp only [List.length_append, List.length_cons] at hf
      omega

theorem greedyLines_fuel (maxWidth : Nat) :
    ∀ f words, words.length ≤ f →
      greedyLines maxWidth f words = greedyLines maxWidth words.length words := by
  intro f
  induction f using Nat.strong_induction_on with
  | _ f ih =>
    intro words hw
    match f, words with
    | f, [] => cases f <;> rfl
    | 0, w :: ws => simp at hw
    | f + 1, w :: ws =>
      have hlen : ws.length ≤ f := by simpa using Nat.le_of_succ_le_succ hw
      have hrest := greedyTake_rest_le maxWidth ws w
      show (greedyTake maxWidth w ws).1 ::
          greedyLines maxWidth f (greedyTake maxWidth w ws).2 =
        (greedyTake maxWidth w ws).1 ::
          greedyLines maxWidth ws.length (greedyTake maxWidth w ws).2
      rw [ih f (Nat.lt_succ_self f) _ (Nat.le_trans hrest hlen),
        ih ws.length (Nat.lt_succ_of_le hlen) _ hrest]

theorem greedyGroupsAux_fuel (maxWidth : Nat) :
    ∀ f words, words.length ≤ f →
      greedyGroupsAux maxWidth f words = greedyGroupsAux maxWidth words.length words := by
  intro f
  induction f using Nat.strong_induction_on with
  | _ f ih =>
    intro words hw
    match f, words with
    | f, [] => cases f <;> rfl
    | 0, w :: ws => simp at hw
    | f + 1, w :: ws =>
      have hlen : ws.length ≤ f := by simpa using Nat.le_of_succ_le_succ hw
      have hrest := greedyTakeG_rest_le maxWidth ws [w]
      show (greedyTakeG maxWidth [w] ws).1 ::
          greedyGroupsAux maxWidth f (greedyTakeG maxWidth [w] ws).2 =
        (greedyTakeG maxWidth [w] ws).1 ::
          greedyGroupsAux maxWidth ws.length (greedyTakeG maxWidth [w] ws).2
      rw [ih f (Nat.lt_succ_self f) _ (Nat.le_trans hrest hlen),
        ih ws.length (Nat.lt_succ_of_le hlen) _ hrest]

theorem wrapLoop_eq_greedy (maxWidth : Nat) :
    ∀ ws lines cur, cur ≠ [] → (∀ x ∈ ws, x ≠ []) →
      wrapLoop maxWidth ws lines cur =
        lines ++ (greedyTake maxWidth cur ws).1 ::
          greedyLines maxWidth (greedyTake maxWidth cur ws).2.length
            (greedyTake maxWidth cur ws).2 := by
  intro ws
  induction ws with
  | nil =>
    intro lines cur hcur _
    show (if cur.isEmpty then lines else lines ++ [cur]) = _
    rw [if_neg (by simpa using hcur)]
    rfl
  | cons w ws ih =>
    intro lines cur hcur hws
    have hwsr : ∀ x ∈ ws, x ≠ [] := fun x hx => hws x (List.mem_cons_of_mem _ hx)
    have hwne : w ≠ [] := hws w (List.mem_cons_self _ _)
    have hce : cur.isEmpty = false := by simpa using hcur
    show (if (cur ++ ' ' :: w).length ≤ maxWidth then
        wrapLoop maxWidth ws lines (if cur.isEmpty then w else cur ++ ' ' :: w)
      else wrapLoop maxWidth ws (if cur.isEmpty then lines else lines ++ [cur]) w) = _
    by_cases hf : (cur ++ ' ' :: w).length ≤ maxWidth
    · rw [if_pos hf, hce]
      show wrapLoop maxWidth ws lines (cur ++ ' ' :: w) = _
      rw [ih lines (cur ++ ' ' :: w) (by simp) hwsr]
      rw [show greedyTake maxWidth cur (w :: ws) =
        greedyTake maxWidth (cur ++ ' ' :: w) ws by
          simp only [greedyTake]; rw [if_pos hf]]
    · rw [if_neg hf, hce]
      show wrapLoop maxWidth ws (lines ++ [cur]) w = _
      rw [ih (lines ++ [cur]) w hwne hwsr]
      rw [show greedyTake maxWidth cur (w :: ws) = (cur, w :: ws) by
        simp only [greedyTake]; rw [if_neg hf]]
      show lines ++ [cur] ++ _ =
        lines ++ cur :: greedyLines maxWidth (w :: ws).length (w :: ws)
      rw [show greedyLines maxWidth (w :: ws).length (w :: ws) =
          (greedyTake maxWidth w ws).1 ::
            greedyLines maxWidth (greedyTake maxWidth w ws).2.length
              (greedyTake maxWidth w ws).2 by
        show greedyLines maxWidth (ws.length + 1) (w :: ws) = _
        simp only [greedyLines]
        rw [greedyLines_fuel maxWidth ws.length _ (greedyTake_rest_le maxWidth ws w)]]
      simp

theorem wrapLoop_start (maxWidth : Nat) (w : Str) (ws : List Str) :
    wrapLoop maxWidth (w :: ws) [] [] = wrapLoop maxWidth ws [] w := by
  show (if (([] : Str) ++ ' ' :: w).length ≤ maxWidth then
      wrapLoop maxWidth ws [] (if ([] : Str).isEmpty then w else [] ++ ' ' :: w)
    else wrapLoop maxWidth ws (if ([] : Str).isEmpty then [] else [] ++ [[]]) w) = _
  by_cases hf : (([] : Str) ++ ' ' :: w).length ≤ maxWidth
  · rw [if_pos hf]; rfl
  · rw [if_neg hf]; rfl

theorem greedyLines_eq_groups (maxWidth : Nat) :
    ∀ f words, (∀ x ∈ words, x ≠ []) →
      greedyLines maxWidth f words = (greedyGroupsAux maxWidth f words).map joinSpace := by
  intro f
  induction f with
  | zero => intro words _; cases words <;> rfl
  | succ f ih =>
    intro words hws
    match words with
    | [] => rfl
    | w :: ws =>
      have hwne : w ≠ [] := hws w (List.mem_cons_self _ _)
      have htake := greedyTake_eq_g maxWidth ws [w] (by simp)
      rw [joinSpace_single] at htake
      show (greedyTake maxWidth w ws).1 ::
          greedyLines maxWidth f (greedyTake maxWidth w ws).2 =
        joinSpace (greedyTakeG maxWidth [w] ws).1 ::
          (greedyGroupsAux maxWidth f (greedyTakeG maxWidth [w] ws).2).map joinSpace
      rw [htake]
      show joinSpace (greedyTakeG maxWidth [w] ws).1 ::
          greedyLines maxWidth f (greedyTakeG maxWidth [w] ws).2 = _
      rw [ih (greedyTakeG maxWidth [w] ws).2
        (fun x hx => hws x (List.mem_cons_of_mem _ (greedyTakeG_rest_mem maxWidth ws [w] x hx)))]

theorem greedyGroups_join (maxWidth : Nat) :
    ∀ f words, words.length ≤ f →
      (greedyGroupsAux maxWidth f words).join = words := by
  intro f
  induction f using Nat.strong_induction_on with
  | _ f ih =>
    intro words hw
    match f, words with
    | f, [] => cases f <;> rfl
    | 0, w :: ws => simp at hw
    | f + 1, w :: ws =>
      have hlen : ws.length ≤ f := by simpa using Nat.le_of_succ_le_succ hw
      have hrest := greedyTakeG_rest_le maxWidth ws [w]
      show ((greedyTakeG maxWidth [w] ws).1 ::
        greedyGroupsAux maxWidth f (greedyTakeG maxWidth [w] ws).2).join = w :: ws
      rw [show ((greedyTakeG maxWidth [w] ws).1 ::
          greedyGroupsAux maxWidth f (greedyTakeG maxWidth [w] ws).2).join =
        (greedyTakeG maxWidth [w] ws).1 ++
          (greedyGroupsAux maxWidth f (greedyTakeG maxWidth [w] ws).2).join from rfl]
      rw [ih f (Nat.lt_succ_self f) _ (Nat.le_trans hrest hlen), greedyTakeG_join]
      rfl

theorem greedyGroups_ne_nil (maxWidth : Nat) :
    ∀ f words g, g ∈ greedyGroupsAux maxWidth f words → g ≠ [] := by
  intro f
  induction f with
  | zero => intro words g hg; cases words <;> simp [greedyGroupsAux] at hg
  | succ f ih =>
    intro words g hg
    match words with
    | [] => simp [greedyGroupsAux] at hg
    | w :: ws =>
      rcases List.mem_cons.mp hg with rfl | hg2
      · exact greedyTakeG_group_ne maxWidth ws [w] (by simp)
      · exact ih _ g hg2

theorem greedyGroups_fits (maxWidth : Nat) :
    ∀ f words g, g ∈ greedyGroupsAux maxWidth f words →
      (joinSpace g).length ≤ maxWidth ∨ g.length = 1 := by
  intro f
  induction f with
  | zero => intro words g hg; cases words <;> simp [greedyGroupsAux] at hg
  | succ f ih =>
    intro words g hg
    match words with
    | [] => simp [greedyGroupsAux] at hg
    | w :: ws =>
      rcases List.mem_cons.mp hg with rfl | hg2
      · rcases greedyTakeG_fits maxWidth ws [w] (by simp) with h1 | h2
        · exact Or.inl h1
        · right; rw [h2]; rfl
      · exact ih _ g hg2

theorem greedyGroups_chain (maxWidth : Nat) :
    ∀ f words, words.length ≤ f →
      List.Chain' (fun g g2 =>
        maxWidth < (joinSpace g).length + 1 + (g2.headD []).length)
        (greedyGroupsAux maxWidth f words) := by
  intro f
  induction f using Nat.strong_induction_on with
  | _ f ih =>
    intro words hw
    match f, words with
    | f, [] => cases f <;> simp [greedyGroupsAux]
    | 0, w :: ws => simp at hw
    | f + 1, w :: ws =>
      have hlen : ws.length ≤ f := by simpa using Nat.le_of_succ_le_succ hw
      have hrest := greedyTakeG_rest_le maxWidth ws [w]
      show List.Chain' _ ((greedyTakeG maxWidth [w] ws).1 ::
        greedyGroupsAux maxWidth f (greedyTakeG maxWidth [w] ws).2)
      rw [List.chain'_cons']
      constructor
      · intro y hy
        rcases hsplit : (greedyTakeG maxWidth [w] ws).2 with _ | ⟨w2, rest2⟩
        · rw [hsplit] at hy
          cases f <;> simp [greedyGroupsAux] at hy
        · rw [hsplit] at hy
          have hf1 : 1 ≤ f := by
            have := greedyTakeG_rest_le maxWidth ws [w]
            rw [hsplit] at this
            simp at this
            omega
          match f, hf1 with
          | f2 + 1, _ =>
            have hy2 : y = (greedyTakeG maxWidth [w2] rest2).1 := by
              simp only [greedyGroupsAux] at hy
              rw [List.head?_cons] at hy
              injection hy with hv
              exact hv.symm
            have hbreak := greedyTakeG_break maxWidth ws [w] w2 rest2 hsplit
            rw [hy2, greedyTakeG_head maxWidth rest2 [w2] (by simp)]
            simpa using hbreak
      · exact ih f (Nat.lt_succ_self f) _ (Nat.le_trans hrest hlen)

theorem wrapStepText_eq_greedy (text : Str) (hlen : 80 < text.length)
    (hws : ∀ x ∈ text.splitOn ' ', x ≠ []) :
    wrapStepText text 80 =
      List.intercalate (str "\n    ")
        ((greedyGroups 80 (text.splitOn ' ')).map joinSpace) := by
  unfold wrapStepText
  rw [if_neg (by omega)]
  rcases hsp : text.splitOn ' ' with _ | ⟨w, ws⟩
  · exfalso
    have hit := List.intercalate_splitOn text ' '
    rw [hsp] at hit
    simp [List.intercalate] at hit
    rw [hit] at hlen
    simp at hlen
  · rw [hsp] at hws
    have hw1 : w ≠ [] := hws w (List.mem_cons_self _ _)
    have hw2 : ∀ x ∈ ws, x ≠ [] := fun x hx => hws x (List.mem_cons_of_mem _ hx)
    rw [wrapLoop_start, wrapLoop_eq_greedy 80 ws [] w hw1 hw2]
    unfold greedyGroups
    rw [← greedyLines_eq_groups 80 (w :: ws).length (w :: ws) hws]
    rw [List.nil_append]
    congr 1
    show _ = greedyLines 80 (ws.length + 1) (w :: ws)
    simp only [greedyLines]
    rw [greedyLines_fuel 80 ws.length _ (greedyTake_rest_le 80 ws w)]

theorem stepIngredients_eq_filter (entries : List (Str × IngredientInfo)) (text : Str) :
    stepIngredients entries text =
      (entries.filter (fun p => nameTest p.1 text)).map
        (fun p => renderAnnot p.1 p.2) := by
  induction entries with
  | nil => rfl
  | cons p rest ih =>
    obtain ⟨n, info⟩ := p
    by_cases hn : nameTest n text = true
    · simp [stepIngredients, hn, ih]
    · simp [stepIngredients, hn, ih, Bool.not_eq_true _ ▸ hn]

/-- C1: for markup containing the two flour occurrences in either order with
no other at-sign markup, the tokenizer keeps exactly one flour entry with
amount 250 and unit g; in general the first stored entry for a name is kept,
a later occurrence replacing it exactly when it carries a truthy amount and
the stored amount is missing, so the kept entry is the first occurrence
carrying an amount when one exists, else the first occurrence; keys stay
unique. -/
theorem c1_ingredient_dedup :
    (∀ pre mid post : Str,
      (∀ c ∈ pre, (c == '@') = false) →
      (∀ c ∈ mid, (c == '@') = false) →
      (∀ c ∈ post, (c == '@') = false) →
      tokenizeIngredients
          (pre ++ str "@flour\x7b250%g\x7d" ++ mid ++ str "@flour\x7b\x7d" ++ post) =
        [(str "flour",
          { amount := some (str "250"), unit := some (str "g"), spec := str "250%g" })] ∧
      tokenizeIngredients
          (pre ++ str "@flour\x7b\x7d" ++ mid ++ str "@flour\x7b250%g\x7d" ++ post) =
        [(str "flour",
          { amount := some (str "250"), unit := some (str "g"), spec := str "250%g" })]) ∧
    (∀ (occs : List (Str × IngredientInfo)) (name : Str),
      mapGet (buildPairs occs) name = firstKeptInfo occs name ∧
      ((buildPairs occs).map Prod.fst).Nodup) := by
  constructor
  · intro pre mid post hpre hmid hpost
    have hpostRefs : findRefs '@' post = [] := by
      have := findRefs_append_clean post [] hpost
      rwa [List.append_nil] at this
    constructor
    · have hocc : findRefs '@'
          (pre ++ str "@flour\x7b250%g\x7d" ++ mid ++ str "@flour\x7b\x7d" ++ post) =
          [(str "flour", str "250%g"), (str "flour", [])] := by
        simp only [List.append_assoc]
        rw [findRefs_append_clean pre _ hpre]
        rw [show str "@flour\x7b250%g\x7d" ++ (mid ++ (str "@flour\x7b\x7d" ++ post)) =
          '@' :: (str "flour" ++ lbrace :: (str "250%g" ++ rbrace ::
            (mid ++ (str "@flour\x7b\x7d" ++ post)))) from by
          rw [show str "@flour\x7b250%g\x7d" =
            '@' :: (str "flour" ++ lbrace :: (str "250%g" ++ [rbrace])) from by decide]
          simp]
        rw [findRefs_match_head _ _ _ (by decide) (by decide) (by decide)]
        rw [findRefs_append_clean mid _ hmid]
        rw [show str "@flour\x7b\x7d" ++ post =
          '@' :: (str "flour" ++ lbrace :: ([] ++ rbrace :: post)) from by
          rw [show str "@flour\x7b\x7d" =
            '@' :: (str "flour" ++ lbrace :: ([] ++ [rbrace])) from by decide]
          simp]
        rw [findRefs_match_head _ _ _ (by decide) (by decide) (by decide)]
        rw [hpostRefs]
      unfold tokenizeIngredients
      rw [hocc]
      decide
    · have hocc : findRefs '@'
          (pre ++ str "@flour\x7b\x7d" ++ mid ++ str "@flour\x7b250%g\x7d" ++ post) =
          [(str "flour", []), (str "flour", str "250%g")] := by
        simp only [List.append_assoc]
        rw [findRefs_append_clean pre _ hpre]
        rw [show str "@flour\x7b\x7d" ++ (mid ++ (str "@flour\x7b250%g\x7d" ++ post)) =
          '@' :: (str "flour" ++ lbrace :: ([] ++ rbrace ::
            (mid ++ (str "@flour\x7b250%g\x7d" ++ post)))) from by
          rw [show str "@flour\x7b\x7d" =
            '@' :: (str "flour" ++ lbrace :: ([] ++ [rbrace])) from by decide]
          simp]
        rw [findRefs_match_head _ _ _ (by decide) (by decide) (by decide)]
        rw [findRefs_append_clean mid _ hmid]
        rw [show str "@flour\x7b250%g\x7d" ++ post =
          '@' :: (str "flour" ++ lbrace :: (str "250%g" ++ rbrace :: post)) from by
          rw [show str "@flour\x7b250%g\x7d" =
            '@' :: (str "flour" ++ lbrace :: (str "250%g" ++ [rbrace])) from by decide]
          simp]
        rw [findRefs_match_head _ _ _ (by decide) (by decide) (by decide)]
        rw [hpostRefs]
      unfold tokenizeIngredients
      rw [hocc]
      decide
  · intro occs name
    exact ⟨buildPairs_lookup occs name, buildPairs_keys_nodup occs⟩

theorem c1_ingredient_dedup_witness :
    tokenizeIngredients (str "@flour\x7b250%g\x7d and @flour\x7b\x7d") =
      [(str "flour",
        { amount := some (str "250"), unit := some (str "g"), spec := str "250%g" })] ∧
    tokenizeIngredients (str "@flour\x7b\x7d and @flour\x7b250%g\x7d") =
      [(str "flour",
        { amount := some (str "250"), unit := some (str "g"), spec := str "250%g" })] := by
  have h := c1_ingredient_dedup.1 [] (str " and ") [] (by decide) (by decide) (by decide)
  constructor
  · have h1 := h.1
    rw [show ([] : Str) ++ str "@flour\x7b250%g\x7d" ++ str " and " ++
        str "@flour\x7b\x7d" ++ [] = str "@flour\x7b250%g\x7d and @flour\x7b\x7d" from by
      decide] at h1
    exact h1
  · have h2 := h.2
    rw [show ([] : Str) ++ str "@flour\x7b\x7d" ++ str " and " ++
        str "@flour\x7b250%g\x7d" ++ [] = str "@flour\x7b\x7d and @flour\x7b250%g\x7d" from by
      decide] at h2
    exact h2

/-- C2 counterexample: on the input at-a-at-b-brace-1-2-percent-x-brace the
tokenizer stores the name a-at-b, which contains an at-sign, refuting the
claim that extracted names exclude the at-sign; and although the spec
1-2-percent-x does not match caret-number-percent-unit for any number with
only an optional leading minus and a decimal point (so the claim, whose spec
starts with a digit, predicts amount equal to the whole spec with unit
unset), the code stores amount 1-2 and unit x. -/
theorem c2_counterexample :
    tokenizeIngredients (str "@a@b\x7b1-2%x\x7d") =
      [(str "a@b",
        { amount := some (str "1-2"), unit := some (str "x"), spec := str "1-2%x" })] ∧
    (str "a@b").contains '@' = true ∧
    c2OrigSpecMatch (str "1-2%x") = false ∧
    isDig ((str "1-2%x").headD ' ') = true ∧
    (some (str "1-2"), some (str "x")) ≠
      ((some (str "1-2%x") : Option Str), (none : Option Str)) := by
  refine ⟨by decide, by decide, by decide, by decide, by decide⟩

/-- C2 amended: every stored ingredient entry comes from an occurrence
at-sign, name-run, braces in the input, where the name-run is any non-empty
run of characters excluding braces (it may contain at-signs) and the entry
stores the trimmed name and trimmed spec; the amount and unit follow the
parse of the trimmed spec, which matches caret, non-empty run of digits,
dots and hyphens, percent, non-empty line-terminator-free unit-text, dollar
(amount the run, unit the trimmed text), else takes the whole spec as the
amount when it starts with an ASCII digit, else leaves both unset. -/
theorem c2_amended :
    (∀ input name info, (name, info) ∈ tokenizeIngredients input →
      ∃ a b rawn raws,
        input = a ++ '@' :: (rawn ++ lbrace :: (raws ++ rbrace :: b)) ∧
        rawn ≠ [] ∧ (∀ c ∈ rawn, isBrace c = false) ∧
        (∀ c ∈ raws, (c == rbrace) = false) ∧
        name = jsTrim rawn ∧ info.spec = jsTrim raws ∧
        (info.amount, info.unit) = specAmountUnit (jsTrim raws)) ∧
    (∀ num u : Str, (!num.isEmpty && num.all isNumRunChar) = true →
      (!u.isEmpty && u.all (fun c => !isLineTerm c)) = true →
      specAmountUnit (num ++ '%' :: u) = (some num, some (jsTrim u))) ∧
    (∀ spec : Str,
      (¬ ∃ num u, spec = num ++ '%' :: u ∧
        (!num.isEmpty && num.all isNumRunChar) = true ∧
        (!u.isEmpty && u.all (fun c => !isLineTerm c)) = true) →
      specAmountUnit spec =
        (if spec.isEmpty then (none, none)
         else if isDig (spec.headD ' ') then (some spec, none)
         else (none, none))) := by
  refine ⟨?_, specAmountUnit_pct, specAmountUnit_no_pct⟩
  intro input name info hmem
  obtain ⟨rawn, raws, hocc, hname, hinfo⟩ := mem_tokenizeIngredients hmem
  obtain ⟨hne, hnb, hsb, a, b, hab⟩ := findRefs_shape hocc
  refine ⟨a, b, rawn, raws, hab, hne, hnb, hsb, hname, ?_, ?_⟩
  · rw [hinfo]
    rfl
  · rw [hinfo]
    unfold mkIngredientInfo
    rcases hsa : specAmountUnit (jsTrim raws) with ⟨am, un⟩
    simp [hsa]

theorem c2_amended_witness :
    (∃ a b rawn raws,
      str "@a@b\x7b1-2%x\x7d" = a ++ '@' :: (rawn ++ lbrace :: (raws ++ rbrace :: b)) ∧
      rawn ≠ [] ∧ (∀ c ∈ rawn, isBrace c = false) ∧
      (∀ c ∈ raws, (c == rbrace) = false) ∧
      str "a@b" = jsTrim rawn ∧ (str "1-2%x") = jsTrim raws ∧
      ((some (str "1-2") : Option Str), (some (str "x") : Option Str)) =
        specAmountUnit (jsTrim raws)) ∧
    specAmountUnit (str "250" ++ '%' :: str "g") = (some (str "250"), some (str "g")) ∧
    specAmountUnit (str "abc") = (none, none) := by
  refine ⟨?_, ?_, ?_⟩
  · exact c2_amended.1 (str "@a@b\x7b1-2%x\x7d") (str "a@b")
      { amount := some (str "1-2"), unit := some (str "x"), spec := str "1-2%x" }
      (by decide)
  · exact c2_amended.2.1 (str "250") (str "g") (by decide) (by decide)
  · have h := c2_amended.2.2 (str "abc") ?hnd
    · rw [h]; decide
    case hnd =>
      rintro ⟨num, u, habc, hnum, hu⟩
      have hmem : '%' ∈ str "abc" := by
        rw [habc]
        simp
      simp [str] at hmem
  

/-- C3: the per-step ingredient loop keeps exactly the known ingredients
whose name passes the case-insensitive whole-word test against the step
text, rendered in map iteration order; an empty selection renders the
bracketed en-dash; and in the flour-and-sugar scenario the annotation is as
the claim states. -/
theorem c3_step_annotations :
    (∀ (entries : List (Str × IngredientInfo)) (text : Str),
      stepIngredients entries text =
        (entries.filter (fun p => nameTest p.1 text)).map
          (fun p => renderAnnot p.1 p.2)) ∧
    (∀ (entries : List (Str × IngredientInfo)) (text : Str),
      (entries.filter (fun p => nameTest p.1 text)) = [] →
      annotationLine entries text = str "[–]") ∧
    lineStepText (str "Mix @flour\x7b250%g\x7d and @sugar\x7b150%g\x7d in a bowl.") =
      str "Mix flour and sugar in a bowl." ∧
    annotationLine
      (tokenizeIngredients (str "Mix @flour\x7b250%g\x7d and @sugar\x7b150%g\x7d in a bowl."))
      (str "Mix flour and sugar in a bowl.") =
      str "[flour: 250 g; sugar: 150 g]" := by
  refine ⟨stepIngredients_eq_filter, ?_, by decide, by decide⟩
  intro entries text h
  unfold annotationLine
  rw [stepIngredients_eq_filter, h]
  rfl

theorem c3_step_annotations_witness :
    annotationLine [] (str "Serve warm.") = str "[–]" := by
  have h := c3_step_annotations.2.1 [] (str "Serve warm.") (by decide)
  exact h

/-- C10: when the raw markup contains no brace characters at all, no
brace-less at-sign or hash reference produces an ingredient or equipment
entry and every step text is the trimmed original line with the sigils
intact; and after a braced reference, a bare reference passes through
verbatim while only the braced one is tokenized and replaced. -/
theorem c10_bare_refs :
    (∀ input : Str, (∀ c ∈ input, isBrace c = false) →
      tokenizeIngredients input = [] ∧ tokenizeEquipment input = [] ∧
      stepTexts input =
        (((stripFrontmatter input).splitOn '\n').filter
          (fun l => !(jsTrim l).isEmpty)).map jsTrim) ∧
    tokenizeIngredients (str "Add @flour\x7b250%g\x7d then @salt") =
      [(str "flour",
        { amount := some (str "250"), unit := some (str "g"), spec := str "250%g" })] ∧
    tokenizeEquipment (str "Heat #pan\x7b\x7d then #spoon") = [str "pan"] ∧
    lineStepText (str "Add @flour\x7b250%g\x7d then @salt") =
      str "Add flour then @salt" ∧
    lineStepText (str "Heat #pan\x7b\x7d then #spoon") =
      str "Heat pan then #spoon" := by
  refine ⟨?_, by decide, by decide, by decide, by decide⟩
  intro input h
  refine ⟨?_, ?_, stepTexts_verbatim input h⟩
  · unfold tokenizeIngredients
    rw [findRefs_no_brace h]
    rfl
  · unfold tokenizeEquipment
    rw [findRefs_no_brace h]
    rfl

theorem c10_bare_refs_witness :
    tokenizeIngredients (str "Mix @salt and #spoon well") = [] ∧
    tokenizeEquipment (str "Mix @salt and #spoon well") = [] ∧
    stepTexts (str "Mix @salt and #spoon well") =
      ((((stripFrontmatter (str "Mix @salt and #spoon well")).splitOn '\n').filter
        (fun l => !(jsTrim l).isEmpty)).map jsTrim) := by
  exact c10_bare_refs.1 (str "Mix @salt and #spoon well") (by decide)

/-- C6 counterexample: a step text of eighty-five letters with no space wraps
to a single output line of eighty-five characters, refuting the claim that
every step text longer than eighty characters is broken into lines of at
most eighty characters at space boundaries. -/
theorem c6_counterexample :
    wrapStepText (List.replicate 85 'a') 80 = List.replicate 85 'a' ∧
    80 < (List.replicate 85 'a' : Str).length ∧
    ¬ (∀ line ∈ (wrapStepText (List.replicate 85 'a') 80).splitOn '\n',
      line.length ≤ 80) := by
  refine ⟨by decide, by decide, ?_⟩
  intro hcon
  have := hcon (List.replicate 85 'a') (by decide)
  rw [List.length_replicate] at this
  omega

theorem lineJoin_append_one (g : List Str) (w : Str) :
    lineJoin (g ++ [w]) = lineStep (lineJoin g) w := by
  unfold lineJoin
  rw [List.foldl_append]
  rfl

theorem foldl_lineStep_ne {c : Str} (t : List Str) (hc : c ≠ []) :
    t.foldl lineStep c ≠ [] := by
  induction t generalizing c with
  | nil => exact hc
  | cons w t ih =>
    rw [List.foldl_cons]
    apply ih
    unfold lineStep
    rw [if_neg (fun h => hc (List.isEmpty_iff.mp h))]
    simp

theorem lineJoin_eq_nil {g : List Str} (h : lineJoin g = []) : ∀ x ∈ g, x = [] := by
  induction g with
  | nil => intro x hx; simp at hx
  | cons w t ih =>
    have hw : w = [] := by
      by_contra hw
      exact foldl_lineStep_ne t hw h
    subst hw
    intro x hx
    rcases List.mem_cons.mp hx with h1 | h2
    · exact h1
    · exact ih h x h2

theorem wrapLoop_eq_groupsLoop (m : Nat) (ws : List Str) (gss : List (List Str))
    (g : List Str) :
    wrapLoop m ws (gss.map lineJoin) (lineJoin g) = (groupsLoop m ws gss g).map lineJoin := by
  induction ws generalizing gss g with
  | nil =>
    simp only [wrapLoop, groupsLoop]
    by_cases h : (lineJoin g).isEmpty
    · rw [if_pos h, if_pos h]
    · rw [if_neg h, if_neg h, List.map_append]
      rfl
  | cons w ws ih =>
    simp only [wrapLoop, groupsLoop]
    by_cases hc : (lineJoin g ++ ' ' :: w).length ≤ m
    · rw [if_pos hc, if_pos hc]
      have key := ih gss (g ++ [w])
      rw [lineJoin_append_one] at key
      unfold lineStep at key
      exact key
    · rw [if_neg hc, if_neg hc]
      by_cases he : (lineJoin g).isEmpty
      · rw [if_pos he, if_pos he]
        have key := ih gss (g ++ [w])
        rw [lineJoin_append_one] at key
        unfold lineStep at key
        rw [if_pos he] at key
        exact key
      · rw [if_neg he, if_neg he]
        have key := ih (gss ++ [g]) [w]
        rw [List.map_append] at key
        have h1 : lineJoin [w] = w := rfl
        rw [h1] at key
        exact key

theorem groupsLoop_flatten (m : Nat) (ws : List Str) (gss : List (List Str))
    (g : List Str) :
    ∃ gl : List Str, (groupsLoop m ws gss g).flatten ++ gl = gss.flatten ++ g ++ ws ∧
      ∀ x ∈ gl, x = [] := by
  induction ws generalizing gss g with
  | nil =>
    by_cases h : (lineJoin g).isEmpty
    · refine ⟨g, ?_, lineJoin_eq_nil (List.isEmpty_iff.mp h)⟩
      simp [groupsLoop, h]
    · refine ⟨[], ?_, by simp⟩
      simp [groupsLoop, h, List.flatten_append]
  | cons w ws ih =>
    simp only [groupsLoop]
    by_cases hc : (lineJoin g ++ ' ' :: w).length ≤ m
    · rw [if_pos hc]
      obtain ⟨gl, hgl, hall⟩ := ih gss (g ++ [w])
      exact ⟨gl, by rw [hgl]; simp [List.append_assoc], hall⟩
    · rw [if_neg hc]
      by_cases he : (lineJoin g).isEmpty
      · rw [if_pos he]
        obtain ⟨gl, hgl, hall⟩ := ih gss (g ++ [w])
        exact ⟨gl, by rw [hgl]; simp [List.append_assoc], hall⟩
      · rw [if_neg he]
        obtain ⟨gl, hgl, hall⟩ := ih (gss ++ [g]) [w]
        exact ⟨gl, by rw [hgl]; simp [List.flatten_append, List.append_assoc], hall⟩

theorem groupsLoop_lines_ne (m : Nat) (ws : List Str) (gss : List (List Str))
    (g : List Str) (hg : ∀ x ∈ gss, lineJoin x ≠ []) :
    ∀ x ∈ groupsLoop m ws gss g, lineJoin x ≠ [] := by
  induction ws generalizing gss g with
  | nil =>
    simp only [groupsLoop]
    by_cases h : (lineJoin g).isEmpty
    · rw [if_pos h]
      exact hg
    · rw [if_neg h]
      intro x hx
      rcases List.mem_append.mp hx with h1 | h2
      · exact hg x h1
      · have hxg : x = g := by simpa using h2
        rw [hxg]
        exact fun hnil => h (by rw [hnil]; rfl)
  | cons w ws ih =>
    simp only [groupsLoop]
    by_cases hc : (lineJoin g ++ ' ' :: w).length ≤ m
    · rw [if_pos hc]
      exact ih gss (g ++ [w]) hg
    · rw [if_neg hc]
      by_cases he : (lineJoin g).isEmpty
      · rw [if_pos he]
        exact ih gss (g ++ [w]) hg
      · rw [if_neg he]
        refine ih (gss ++ [g]) [w] ?_
        intro x hx
        rcases List.mem_append.mp hx with h1 | h2
        · exact hg x h1
        · have hxg : x = g := by simpa using h2
          rw [hxg]
          exact fun hnil => he (by rw [hnil]; rfl)

theorem groupsLoop_fits (m : Nat) (ws : List Str) (gss : List (List Str))
    (g : List Str)
    (hg : ∀ x ∈ gss, (lineJoin x).length ≤ m ∨ ∃ w ∈ x, lineJoin x = w)
    (hcur : (lineJoin g).length ≤ m ∨ ∃ w ∈ g, lineJoin g = w) :
    ∀ x ∈ groupsLoop m ws gss g,
      (lineJoin x).length ≤ m ∨ ∃ w ∈ x, lineJoin x = w := by
  induction ws generalizing gss g with
  | nil =>
    simp only [groupsLoop]
    by_cases h : (lineJoin g).isEmpty
    · rw [if_pos h]
      exact hg
    · rw [if_neg h]
      intro x hx
      rcases List.mem_append.mp hx with h1 | h2
      · exact hg x h1
      · have hxg : x = g := by simpa using h2
        rw [hxg]
        exact hcur
  | cons w ws ih =>
    simp only [groupsLoop]
    by_cases hc : (lineJoin g ++ ' ' :: w).length ≤ m
    · rw [if_pos hc]
      refine ih gss (g ++ [w]) hg ?_
      rw [lineJoin_append_one]
      unfold lineStep
      by_cases he : (lineJoin g).isEmpty
      · rw [if_pos he]
        exact Or.inr ⟨w, by simp, rfl⟩
      · rw [if_neg he]
        exact Or.inl hc
    · rw [if_neg hc]
      by_cases he : (lineJoin g).isEmpty
      · rw [if_pos he]
        refine ih gss (g ++ [w]) hg ?_
        right
        refine ⟨w, by simp, ?_⟩
        rw [lineJoin_append_one]
        unfold lineStep
        rw [if_pos he]
      · rw [if_neg he]
        refine ih (gss ++ [g]) [w] ?_ (Or.inr ⟨w, by simp, rfl⟩)
        intro x hx
        rcases List.mem_append.mp hx with h1 | h2
        · exact hg x h1
        · have hxg : x = g := by simpa using h2
          rw [hxg]
          exact hcur

theorem groupsLoop_chain (m : Nat) (ws : List Str) (gss : List (List Str))
    (g : List Str) (hne : g = [] → gss = [])
    (hch : List.Chain' (fun a b =>
      m < (lineJoin a).length + 1 + (b.headD []).length) (gss ++ [g])) :
    List.Chain' (fun a b => m < (lineJoin a).length + 1 + (b.headD []).length)
      (groupsLoop m ws gss g) := by
  induction ws generalizing gss g with
  | nil =>
    simp only [groupsLoop]
    by_cases h : (lineJoin g).isEmpty
    · rw [if_pos h]
      exact (List.chain'_append.mp hch).1
    · rw [if_neg h]
      exact hch
  | cons w ws ih =>
    simp only [groupsLoop]
    have hgrow : List.Chain' (fun a b =>
        m < (lineJoin a).length + 1 + (b.headD []).length) (gss ++ [g ++ [w]]) := by
      obtain ⟨h1, h2, h3⟩ := List.chain'_append.mp hch
      refine List.chain'_append.mpr ⟨h1, List.chain'_singleton _, ?_⟩
      intro x hx y hy
      have hy2 : y = g ++ [w] := Eq.symm (by simpa using hy)
      have hgss : gss ≠ [] := by
        intro hemp
        rw [hemp] at hx
        simp at hx
      have hgne : g ≠ [] := fun hemp => hgss (hne hemp)
      have hb := h3 x hx g (by simp)
      rw [hy2]
      obtain ⟨a, t, hg⟩ := List.exists_cons_of_ne_nil hgne
      rw [hg] at hb ⊢
      simpa using hb
    by_cases hc : (lineJoin g ++ ' ' :: w).length ≤ m
    · rw [if_pos hc]
      exact ih gss (g ++ [w]) (fun hemp => absurd hemp (by simp)) hgrow
    · rw [if_neg hc]
      by_cases he : (lineJoin g).isEmpty
      · rw [if_pos he]
        exact ih gss (g ++ [w]) (fun hemp => absurd hemp (by simp)) hgrow
      · rw [if_neg he]
        apply ih (gss ++ [g]) [w] (fun hemp => absurd hemp (by simp))
        refine List.chain'_append.mpr ⟨hch, List.chain'_singleton _, ?_⟩
        intro x hx y hy
        have hy2 : y = [w] := Eq.symm (by simpa using hy)
        have hx2 : x = g := by
          rw [List.getLast?_concat] at hx
          exact Eq.symm (by simpa using hx)
        rw [hy2, hx2]
        rw [List.length_append, List.length_cons] at hc
        simp only [List.headD_cons]
        omega

/-- C6 amended: a step text longer than eighty characters is wrapped
greedily over its space-split tokens: the emitted lines are the accumulated
token groups, where a separating space is inserted only when the
accumulated line is non-empty — so empty tokens from consecutive spaces can
leave extra spaces inside a line or vanish, and a trailing run of empty
tokens produces no line — joined by newline plus four spaces; the groups
followed by that trailing run of empty tokens partition the split tokens in
order, every emitted line is non-empty and fits in eighty characters unless
it is a single over-long split token, and appending the first token of the
next group to a line would always exceed eighty characters; in particular
the eighty-one-character text with the space at position seventy-six wraps
into two lines with the continuation indented four spaces, a double space
can leave a trailing space on a line, and after an over-long token a double
space's empty token vanishes. -/
theorem c6_amended :
    (∀ text : Str, 80 < text.length →
      ∃ gs : List (List Str), ∃ gl : List Str,
        gs.flatten ++ gl = text.splitOn ' ' ∧
        (∀ x ∈ gl, x = []) ∧
        wrapStepText text 80 =
          List.intercalate (str "\n    ") (gs.map lineJoin) ∧
        (∀ g ∈ gs, lineJoin g ≠ []) ∧
        (∀ g ∈ gs, (lineJoin g).length ≤ 80 ∨ lineJoin g ∈ text.splitOn ' ') ∧
        List.Chain' (fun g g2 =>
          80 < (lineJoin g).length + 1 + (g2.headD []).length) gs) ∧
    wrapStepText (List.replicate 76 'a' ++ ' ' :: str "bcde") 80 =
      List.replicate 76 'a' ++ str "\n    bcde" ∧
    (List.replicate 76 'a' ++ ' ' :: str "bcde" : Str).length = 81 ∧
    wrapStepText (List.replicate 79 'a' ++ str "  b") 80 =
      List.replicate 79 'a' ++ ' ' :: str "\n    b" ∧
    wrapStepText (List.replicate 81 'a' ++ str "  x") 80 =
      List.replicate 81 'a' ++ str "\n    x" := by
  refine ⟨?_, by decide, by decide, by decide, by decide⟩
  intro text hlen
  obtain ⟨gl, hgl, hall⟩ := groupsLoop_flatten 80 (text.splitOn ' ') [] []
  have hgl2 : (groupsLoop 80 (text.splitOn ' ') [] []).flatten ++ gl =
      text.splitOn ' ' := by
    simpa using hgl
  refine ⟨groupsLoop 80 (text.splitOn ' ') [] [], gl, hgl2, hall, ?_, ?_, ?_, ?_⟩
  · unfold wrapStepText
    rw [if_neg (by omega)]
    have key := wrapLoop_eq_groupsLoop 80 (text.splitOn ' ') [] []
    have h0 : lineJoin [] = ([] : Str) := rfl
    rw [h0, List.map_nil] at key
    rw [key]
  · exact groupsLoop_lines_ne 80 _ [] [] (by simp)
  · intro g hg2
    rcases groupsLoop_fits 80 _ [] [] (by simp) (Or.inl (by simp [lineJoin]))
        g hg2 with h1 | ⟨w, hw, he⟩
    · exact Or.inl h1
    · right
      rw [he, ← hgl2]
      exact List.mem_append.mpr (Or.inl (List.mem_flatten.mpr ⟨g, hg2, hw⟩))
  · exact groupsLoop_chain 80 _ [] [] (fun _ => rfl) (by simp)

theorem c6_amended_witness :
    80 < (List.replicate 76 'a' ++ ' ' :: str "bcde" : Str).length ∧
    (∃ gs : List (List Str), ∃ gl : List Str,
      gs.flatten ++ gl = (List.replicate 76 'a' ++ ' ' :: str "bcde" : Str).splitOn ' ' ∧
      (∀ x ∈ gl, x = []) ∧
      wrapStepText (List.replicate 76 'a' ++ ' ' :: str "bcde") 80 =
        List.intercalate (str "\n    ") (gs.map lineJoin) ∧
      (∀ g ∈ gs, lineJoin g ≠ []) ∧
      (∀ g ∈ gs, (lineJoin g).length ≤ 80 ∨
        lineJoin g ∈ (List.replicate 76 'a' ++ ' ' :: str "bcde" : Str).splitOn ' ') ∧
      List.Chain' (fun g g2 =>
        80 < (lineJoin g).length + 1 + (g2.headD []).length) gs) :=
  ⟨by decide, c6_amended.1 (List.replicate 76 'a' ++ ' ' :: str "bcde") (by decide)⟩

theorem parseContent_title (content : Str) (r : RecipeRecord) :
    (Processor.parseContent content r).title = r.title := by
  unfold Processor.parseContent
  dsimp only
  split <;> rfl

/-- C7 counterexample: for the body x (no frontmatter block) and filename
my-underscore-recipe, the code produces the title with the underscore intact
while the claim predicts spaces for underscores as well. -/
theorem c7_counterexample :
    (Processor.parseRecipe (str "x") (str "my_recipe")).title = str "My_recipe" ∧
    c7ClaimTitle (str "my_recipe") = str "My Recipe" ∧
    str "My_recipe" ≠ str "My Recipe" := by
  refine ⟨by decide, by decide, by decide⟩

/-- C7 amended: when the markdown has no leading frontmatter block, the
title falls back to the filename with hyphens (and only hyphens) replaced by
spaces and each word-initial character uppercased. -/
theorem c7_amended :
    ∀ markdown filename : Str,
      ¬((str "---\n").isPrefixOf markdown = true ∧
        (idxOf (str "\n---") (markdown.drop 4)).isSome = true) →
      (Processor.parseRecipe markdown filename).title = titleFromFilename filename := by
  intro markdown filename h
  unfold Processor.parseRecipe
  by_cases hp : (str "---\n").isPrefixOf markdown = true
  · rw [if_pos hp]
    rcases hi : idxOf (str "\n---") (markdown.drop 4) with _ | i
    · dsimp only
      rw [if_pos (by rw [parseContent_title]; rfl)]
    · exact absurd ⟨hp, by rw [hi]; rfl⟩ h
  · rw [if_neg hp]
    dsimp only
    rw [if_pos (by rw [parseContent_title]; rfl)]

theorem c7_amended_witness :
    (Processor.parseRecipe (str "bake it") (str "apple_pie-cake")).title =
      titleFromFilename (str "apple_pie-cake") := by
  exact c7_amended (str "bake it") (str "apple_pie-cake") (by decide)

theorem stepNumSplit_head {t ds s0 : Str} (h : stepNumSplit t = some (ds, s0)) :
    ∃ d t2, t = d :: t2 ∧ isDig d = true := by
  match t with
  | [] => simp [stepNumSplit] at h
  | c :: t2 =>
    by_cases hc : isDig c = true
    · exact ⟨c, t2, rfl, hc⟩
    · have hfc : isDig c = false := by simpa using hc
      simp [stepNumSplit, hfc] at h

/-- C8: inside the Steps section, a numbered line whose captured content
matches a metadata-key prefix only flushes the pending step and is itself
discarded — nothing from that line reaches the instructions list; and in the
concrete run with an author line between two steps, the instructions are
exactly the two cooking steps. -/
theorem c8_metadata_step_discarded :
    (∀ (st : Tasks.TState) (line ds s0 : Str),
      st.inSteps = true →
      stepNumSplit (jsTrim line) = some (ds, s0) →
      Tasks.isMetaText (jsTrim s0) = true →
      Tasks.tStep st line =
        { st with instrs := st.instrs ++ Tasks.flushT st, cur := [], num := none } ∧
      (∀ s ∈ (Tasks.tStep st line).instrs,
        s ∈ st.instrs ∨ s = jsTrim (List.intercalate [' '] st.cur))) ∧
    (Tasks.parseContent
      (str "## Steps\n1. Mix well\n2. author: Jane Doe\n3. Bake")
      emptyRecipeRecord).instructions = [str "Mix well", str "Bake"] := by
  constructor
  · intro st line ds s0 hin hsplit hmeta
    obtain ⟨d, t2, ht, hdig⟩ := stepNumSplit_head hsplit
    have hne : ∀ x : Char, (d == x) = true → isDig x = true := by
      intro x h2
      have hx : d = x := by simpa using h2
      rw [← hx]
      exact hdig
    have hdh : (d == '#') = false := by
      by_cases hc : (d == '#') = true
      · exact absurd (hne '#' hc) (by decide)
      · simpa using hc
    have hdb : (d == '[') = false := by
      by_cases hc : (d == '[') = true
      · exact absurd (hne '[' hc) (by decide)
      · simpa using hc
    have hsteps : isStepsHeader (jsTrim line) = false := by
      rw [ht]
      simp [isStepsHeader, hdh]
    have hend : isEndHeader (jsTrim line) = false := by
      rw [ht]
      simp [isEndHeader, hdh]
    have hemp : (jsTrim line).isEmpty = false := by rw [ht]; rfl
    have hbr : ((jsTrim line).headD ' ' == '[') = false := by
      rw [ht]
      exact hdb
    have htrans : Tasks.tStep st line =
        { st with instrs := st.instrs ++ Tasks.flushT st, cur := [], num := none } := by
      simp [Tasks.tStep, hsteps, hend, hin, hemp, hbr, hsplit, hmeta]
    refine ⟨htrans, ?_⟩
    intro s hs
    rw [htrans] at hs
    dsimp only at hs
    rcases List.mem_append.mp hs with h1 | h2
    · exact Or.inl h1
    · right
      unfold Tasks.flushT at h2
      split at h2
      · simp at h2
      · dsimp only at h2
        split at h2
        · simp at h2
        · simpa using h2
  · decide

theorem c8_metadata_step_discarded_witness :
    Tasks.tStep
        { inSteps := true, cur := [str "Mix"], num := some 1, instrs := [] }
        (str "2. author: Jane") =
      { inSteps := true, cur := [], num := none, instrs := [str "Mix"] } ∧
    ∀ s ∈ (Tasks.tStep
        { inSteps := true, cur := [str "Mix"], num := some 1, instrs := [] }
        (str "2. author: Jane")).instrs,
      s ∈ ([] : List Str) ∨
        s = jsTrim (List.intercalate [' '] [str "Mix"]) := by
  have h := c8_metadata_step_discarded.1
    { inSteps := true, cur := [str "Mix"], num := some 1, instrs := [] }
    (str "2. author: Jane") (str "2") (str "author: Jane")
    (by rfl) (by decide) (by decide)
  refine ⟨?_, h.2⟩
  rw [h.1]
  decide

/-- C4 counterexample: binding the each key to the non-list string value abc
makes rendering raise the array.map TypeError instead of contributing empty
output, against the claim that any non-list value yields zero iterations and
no error. -/
theorem c4_counterexample :
    (∀ l, Value.str (str "abc") ≠ Value.list l) ∧
    renderTemplate 5 c4Tmpl [(str "items", Value.str (str "abc"))] =
      .error (str "TypeError: array.map is not a function") ∧
    renderTemplate 5 c4Tmpl [(str "items", Value.str (str "abc"))] ≠
      .ok (str "AB") := by
  refine ⟨fun l h => Value.noConfusion h, rfl, fun h => ?_⟩
  exact Except.noConfusion h

/-- C4 (amended): for the each-block template, a missing key, a falsy bound
value, or an empty list contributes empty output with the rest rendering;
but a truthy non-list value makes the block's array.map throw, modelled as
an error result. -/
theorem c4_amended :
    (∀ v : Value, jsTruthy v = false →
      renderTemplate 5 c4Tmpl [(str "items", v)] = .ok (str "AB")) ∧
    renderTemplate 5 c4Tmpl [] = .ok (str "AB") ∧
    renderTemplate 5 c4Tmpl [(str "items", Value.list [])] = .ok (str "AB") ∧
    (∀ v : Value, jsTruthy v = true → (∀ l, v ≠ Value.list l) →
      eachArray (some v) = .error (str "TypeError: array.map is not a function")) := by
  refine ⟨?_, rfl, rfl, ?_⟩
  · intro v hf
    cases v with
    | null => rfl
    | bool b =>
      have hb : b = false := by simpa [jsTruthy] using hf
      subst hb
      rfl
    | num n =>
      have hn : n = 0 := by simpa [jsTruthy] using hf
      subst hn
      rfl
    | str s =>
      have hs : s = [] := by simpa [jsTruthy] using hf
      subst hs
      rfl
    | list l => simp [jsTruthy] at hf
    | obj fs => simp [jsTruthy] at hf
  · intro v ht hnl
    cases v with
    | list l => exact absurd rfl (hnl l)
    | null => exact Bool.noConfusion ht
    | bool b =>
      have hb : b = true := by simpa [jsTruthy] using ht
      subst hb
      rfl
    | num n =>
      simp only [eachArray]
      rw [if_pos ht]
    | str s =>
      simp only [eachArray]
      rw [if_pos ht]
    | obj fs => rfl

theorem c4_amended_witness :
    renderTemplate 5 c4Tmpl [(str "items", Value.null)] = .ok (str "AB") ∧
    eachArray (some (Value.obj [])) =
      .error (str "TypeError: array.map is not a function") :=
  ⟨c4_amended.1 Value.null rfl,
   c4_amended.2.2.2 (Value.obj []) rfl (fun l h => Value.noConfusion h)⟩

/-- C5 counterexample: the number 0 is not in the claim's exclusion list, so
the claim predicts the then-branch, but 0 is falsy in the source's condition
and the else-branch is rendered. -/
theorem c5_counterexample :
    c5ClaimThen (some (Value.num 0)) = true ∧
    jsTruthyOpt (some (Value.num 0)) = false ∧
    renderTemplate 5 c5Tmpl [(str "k", Value.num 0)] = .ok (str "E") ∧
    str "E" ≠ str "T" :=
  ⟨rfl, rfl, rfl, by decide⟩

/-- C5 (amended): the if-else template renders the then-branch exactly when
the source condition holds of the bound value — for a list, non-emptiness;
for any other value, plain JavaScript truthiness, which excludes null,
undefined, false, the empty string and also the number 0; a missing key
renders the else-branch. -/
theorem c5_amended :
    (∀ v : Value, (∀ l, v ≠ Value.list l) → renderTemplate 5 c5Tmpl [(str "k", v)] =
      .ok (if jsTruthy v = true then str "T" else str "E")) ∧
    renderTemplate 5 c5Tmpl [] = .ok (str "E") ∧
    (∀ l : List Value, jsTruthyOpt (some (Value.list l)) = decide (0 < l.length)) ∧
    renderTemplate 5 c5Tmpl [(str "k", Value.list [Value.num 1])] = .ok (str "T") ∧
    renderTemplate 5 c5Tmpl [(str "k", Value.list [])] = .ok (str "E") ∧
    (∀ v : Value, (∀ l, v ≠ Value.list l) → jsTruthyOpt (some v) = jsTruthy v) := by
  refine ⟨?_, rfl, ?_, rfl, rfl, ?_⟩
  · intro v hnl
    cases v with
    | null => rfl
    | bool b => cases b <;> rfl
    | num n =>
      match n with
      | Int.ofNat 0 => rfl
      | Int.ofNat (m + 1) => rfl
      | Int.negSucc m => rfl
    | str s => cases s <;> rfl
    | list l => exact absurd rfl (hnl l)
    | obj fs => rfl
  · intro l
    cases l with
    | nil => rfl
    | cons h t => simp [jsTruthyOpt, jsTruthy]
  · intro v hnl
    cases v with
    | null => rfl
    | bool b => cases b <;> rfl
    | num n =>
      match n with
      | Int.ofNat 0 => rfl
      | Int.ofNat (m + 1) => rfl
      | Int.negSucc m => rfl
    | str s => cases s <;> rfl
    | list l => exact absurd rfl (hnl l)
    | obj fs => rfl

/-- C9 counterexample: with an unmatched each or if open tag, rendering
does not raise, but the region after the open tag is not passed through
unchanged — the later variable passes still interpolate the name tag inside
it, for each blocks and for if blocks alike. -/
theorem c9_counterexample :
    renderTemplate 5 c9Tmpl [(str "name", Value.str (str "X"))] =
      .ok (str "\x7b\x7b#each items\x7d\x7dX") ∧
    str "\x7b\x7b#each items\x7d\x7dX" ≠ c9Tmpl ∧
    renderTemplate 5 c9IfTmpl [(str "name", Value.str (str "X"))] =
      .ok (str "\x7b\x7b#if items\x7d\x7dX") ∧
    str "\x7b\x7b#if items\x7d\x7dX" ≠ c9IfTmpl :=
  ⟨rfl, by decide, rfl, by decide⟩

/-- C9 (amended): when an each or if open tag has no matching close, the
block scanner hits the not-found sentinel and the each pass, respectively
the if pass, returns the whole remaining text unchanged with no error; the
text then reaches the variable interpolation passes, which may still
rewrite variable tags inside the unmatched region, as the concrete runs
show. -/
theorem c9_amended :
    (∀ (render : Str → Ctx → Except Str Str) (f : Nat) (cs : Str) (data : Ctx)
        (acc : Str) (changed : Bool) (i j : Nat),
      idxOf eachOpenT cs = some i →
      idxOf closeBr (cs.drop i) = some j →
      findMatchingClose ((cs.drop i).drop (j + 2)) = none →
      eachScan render (f + 1) cs data acc changed = .ok (acc ++ cs, changed)) ∧
    (∀ (render : Str → Ctx → Except Str Str) (f : Nat) (cs : Str) (data : Ctx)
        (acc : Str) (changed : Bool) (i j : Nat),
      idxOf ifOpenT cs = some i →
      idxOf closeBr (cs.drop i) = some j →
      findMatchingIfClose ((cs.drop i).drop (j + 2)) = none →
      ifScan render (f + 1) cs data acc changed = .ok (acc ++ cs, changed)) ∧
    (∀ data : Ctx, renderTemplate 5 c9Tmpl data =
      .ok (varPass false data (varPass true data c9Tmpl))) ∧
    (∀ data : Ctx, renderTemplate 5 c9IfTmpl data =
      .ok (varPass false data (varPass true data c9IfTmpl))) ∧
    renderTemplate 5 c9Tmpl [(str "name", Value.str (str "X"))] =
      .ok (str "\x7b\x7b#each items\x7d\x7dX") ∧
    renderTemplate 5 c9IfTmpl [(str "name", Value.str (str "X"))] =
      .ok (str "\x7b\x7b#if items\x7d\x7dX") := by
  refine ⟨?_, ?_, fun data => rfl, fun data => rfl, rfl, rfl⟩
  · intro render f cs data acc changed i j h1 h2 h3
    simp only [eachScan]
    rw [h1]
    dsimp only
    rw [h2]
    dsimp only
    rw [h3]
    rw [List.append_assoc, List.take_append_drop]
  · intro render f cs data acc changed i j h1 h2 h3
    simp only [ifScan]
    rw [h1]
    dsimp only
    rw [h2]
    dsimp only
    rw [h3]
    rw [List.append_assoc, List.take_append_drop]
